import Mathlib

/-!
Verification development for the chess-scout prediction service
(`scout-api`: `predictor.py`, `engine.py`, `heuristics.py`, `models.py`,
`main.py`).

The Python sources are embedded shallowly:

* numbers: Python `int` becomes `Nat`/`Int`, Python `float` arithmetic is
  modelled exactly over `ℚ` (and over `ℝ` for the softmax, which uses the
  transcendental `exp`).  The spec's "± 0.01" float allowances become exact
  equalities in this real-number model.
* the `python-chess` board and the Stockfish subprocess are third-party
  state; they enter the model as oracle records (`Board`, the engine
  analysis list, `single_eval`) whose outputs the source code consumes.
* Python's `sorted(key=..., reverse=True)` is specified as a *stable* sort
  in descending key order; it is embedded as a stable insertion sort
  (`sort_desc`), which has exactly that semantics.
* Python dicts built by iteration (later keys overwrite earlier ones) are
  modelled by lookup of the *last* matching element (`reverse.find?`).
* human-readable output (trace logs, the `reason` strings) and the dead
  `tactical_guardrail` response field are elided from the modelled
  response record; no claim mentions them.
-/

namespace ChessScout

/-- Prediction mode (`models.PredictionMode`). -/
inductive Mode where
  | pure_history
  | hybrid
deriving DecidableEq

/-- Opponent style markers (`models.StyleMarkers`); all on a 0-100 scale. -/
structure StyleMarkers where
  aggression_index : ℚ
  queen_trade_avoidance : ℚ
  material_greed : ℚ
  complexity_preference : ℚ
  space_expansion : ℚ
  blunder_rate : ℚ
  time_pressure_weakness : ℚ
deriving DecidableEq

/-- Default style markers (`models.StyleMarkers` field defaults). -/
def defaultMarkers : StyleMarkers := ⟨50, 50, 50, 50, 50, 5, 50⟩

/-- A historical move at the position (`models.HistoryMove`).
`last_played` and `avg_result` are never read by the predictor and are
omitted. -/
structure HistoryMove where
  move_san : String
  frequency : ℕ
deriving DecidableEq

/-- One entry of the engine's Multi-PV output (`engine.analyze_position`
result dict).  `score_mate`, `pv` and `depth` are never read by the
predictor's fusion path and are omitted. -/
structure EngineEntry where
  move_san : String
  move_uci : String
  score_cp : ℤ
  rank : ℕ
deriving DecidableEq

/-- Attribution breakdown (`models.MoveAttribution`). -/
structure MoveAttribution where
  aggression_bonus : ℚ
  complexity_bonus : ℚ
  trade_penalty : ℚ
  greed_bonus : ℚ
  space_bonus : ℚ
  tilt_modifier : ℚ
deriving DecidableEq

/-- The all-zero attribution (`MoveAttribution()` with default fields). -/
def zeroAttribution : MoveAttribution := ⟨0, 0, 0, 0, 0, 0⟩

/-- Habit detection result (`models.HabitDetection`). -/
structure HabitDetection where
  detected : Bool
  move : Option String
  frequency : ℚ
  sample_size : ℕ
deriving DecidableEq

/-- `HabitDetection()` with all defaults. -/
def emptyHabit : HabitDetection := ⟨false, none, 0, 0⟩

/-- Phase weights (`models.PhaseWeights`). -/
structure PhaseWeights where
  phase : String
  history : ℚ
  engine : ℚ
  style : ℚ
  predictability_index : ℚ
  sample_size : ℕ
  weight_mode : String
deriving DecidableEq

/-- Move source attribution (`models.MoveSourceAttribution`). -/
structure MoveSourceAttribution where
  primary_source : String
  history_contribution : ℚ
  style_contribution : ℚ
  engine_contribution : ℚ
deriving DecidableEq

/-- `MoveSourceAttribution()` with all defaults. -/
def defaultMoveSource : MoveSourceAttribution := ⟨"engine", 0, 0, 0⟩

/-- A candidate move of the response (`models.CandidateMove`).  The
`reason` string is elided.  `final_prob` is real-valued because the hybrid
path computes it with a softmax. -/
structure CandidateMove where
  move : String
  move_uci : String
  engine_eval : ℚ
  engine_rank : ℕ
  history_frequency : ℚ
  style_fit : ℚ
  raw_score : ℚ
  final_prob : ℝ
  attribution : MoveAttribution

/-- The prediction response (`models.PredictionResponse`); `trace_log` and
the never-written `tactical_guardrail` field are elided. -/
structure PredictionResponse where
  prediction_mode : Mode
  selected_move : String
  selected_move_uci : String
  weights : PhaseWeights
  candidates : List CandidateMove
  tilt_active : Bool
  blunder_applied : Bool
  habit_detection : HabitDetection
  move_source : MoveSourceAttribution
  suggested_delay_ms : ℕ

/-- Board-dependent feature bits consumed by
`heuristics.calculate_style_fit`; they are pure functions of the
`python-chess` board and move, so they enter the model as an oracle,
keyed by the move's UCI string. -/
structure MoveFeatures where
  is_check_or_threat : Bool
  increases_king_pressure : Bool
  is_queen_trade_offer : Bool
  is_material_grab : Bool
  tension_delta : ℤ
  is_space_expansion : Bool

/-- Oracle view of a parsed `python-chess` board.  `parse_san` returns the
UCI encoding of a SAN string when `board.parse_san` succeeds (it raises on
unparseable or illegal SAN, modelled as `none`); `legal_uci` enumerates
`board.legal_moves`; `san_of_uci` is `board.san`; `tension` is
`ChessHeuristics.calculate_board_tension(board)`. -/
structure Board where
  fen : String
  legal_uci : List String
  parse_san : String → Option String
  san_of_uci : String → String
  tension : ℕ
  features : String → MoveFeatures

/-- The predictor's RNG draws (`random.random` / `random.choice`), fixed
per request: the blunder-branch draw, the `random.choice([2, 3])` pick
(`true` picks index 2), the CDF-selection draw, and the index pick for the
engine-unavailable fallback `random.choice(legal_moves)`. -/
structure RNG where
  blunder_draw : ℚ
  blunder_choice : Bool
  select_draw : ℚ
  fallback_choice : ℕ

/-! ### Stable descending sort

Python's `sorted(xs, key=k, reverse=True)` is a stable sort in descending
key order.  It is embedded as a stable insertion sort: an element is
inserted *before* the first element whose key is `≤` its own, so earlier
elements stay first among equal keys. -/

/-- Insert `a` into `l`, keeping `l`'s order, before the first element
whose key is `≤ key a`. -/
def stable_insert {α β : Type} [LinearOrder β] (key : α → β) (a : α) : List α → List α
  | [] => [a]
  | b :: l => if key b ≤ key a then a :: b :: l else b :: stable_insert key a l

/-- Stable sort in descending key order (Python
`sorted(key=..., reverse=True)`). -/
def sort_desc {α β : Type} [LinearOrder β] (key : α → β) (l : List α) : List α :=
  l.foldr (stable_insert key) []

theorem stable_insert_perm {α β : Type} [LinearOrder β] (key : α → β) (a : α) (l : List α) :
    (stable_insert key a l).Perm (a :: l) := by
  induction l with
  | nil => simp [stable_insert]
  | cons b t ih =>
    by_cases h : key b ≤ key a
    · simp [stable_insert, h]
    · simp only [stable_insert, if_neg h]
      exact (ih.cons b).trans (List.Perm.swap a b t)

theorem sort_desc_perm {α β : Type} [LinearOrder β] (key : α → β) (l : List α) :
    (sort_desc key l).Perm l := by
  induction l with
  | nil => simp [sort_desc]
  | cons a t ih =>
    exact (stable_insert_perm key a (sort_desc key t)).trans (ih.cons a)

theorem stable_insert_sorted {α β : Type} [LinearOrder β] (key : α → β) (a : α) (l : List α)
    (h : List.Pairwise (fun x y => key y ≤ key x) l) :
    List.Pairwise (fun x y => key y ≤ key x) (stable_insert key a l) := by
  induction l with
  | nil => simp [stable_insert]
  | cons b t ih =>
    rcases h with _ | ⟨hb, ht⟩
    by_cases hba : key b ≤ key a
    · simp only [stable_insert, if_pos hba]
      refine List.Pairwise.cons ?_ (List.Pairwise.cons hb ht)
      intro x hx
      rw [List.mem_cons] at hx
      rcases hx with rfl | hx
      · exact hba
      · exact le_trans (hb x hx) hba
    · simp only [stable_insert, if_neg hba]
      refine List.Pairwise.cons ?_ (ih ht)
      intro x hx
      have hmem : x ∈ a :: t := (stable_insert_perm key a t).mem_iff.mp hx
      rw [List.mem_cons] at hmem
      rcases hmem with rfl | hmem
      · exact le_of_not_le hba
      · exact hb x hmem

theorem sort_desc_sorted {α β : Type} [LinearOrder β] (key : α → β) (l : List α) :
    List.Pairwise (fun x y => key y ≤ key x) (sort_desc key l) := by
  induction l with
  | nil => simp [sort_desc]
  | cons a t ih => exact stable_insert_sorted key a (sort_desc key t) ih

theorem sort_desc_length {α β : Type} [LinearOrder β] (key : α → β) (l : List α) :
    (sort_desc key l).length = l.length :=
  (sort_desc_perm key l).length_eq

/-! ### Board heuristics (`heuristics.py`) -/

/-- `ChessHeuristics.detect_tilt`: look at the last three eval deltas; any
delta strictly below `-threshold` means tilt.  An empty list never tilts. -/
def detect_tilt (recent_eval_deltas : List ℚ) (threshold : ℚ) : Bool :=
  if recent_eval_deltas = [] then false
  else (recent_eval_deltas.drop (recent_eval_deltas.length - 3)).any
    (fun delta => decide (delta < -threshold))

/-- `ChessHeuristics.apply_tilt_modifiers`: double aggression and blunder
rate, multiply greed by 1.5, clamp at 100; other markers unchanged.  (The
source also sets `tilt_modifier = 0.5` on a caller-supplied attribution
record that the caller discards.) -/
def apply_tilt_modifiers (markers : StyleMarkers) : StyleMarkers :=
  ⟨min 100 (markers.aggression_index * 2),
   markers.queen_trade_avoidance,
   min 100 (markers.material_greed * (3/2)),
   markers.complexity_preference,
   markers.space_expansion,
   min 100 (markers.blunder_rate * 2),
   markers.time_pressure_weakness⟩

/-- `ChessHeuristics.calculate_style_fit`: sum of marker-gated feature
bonuses, with the per-feature attribution breakdown. -/
def calculate_style_fit (feat : MoveFeatures) (markers : StyleMarkers) : ℚ × MoveAttribution :=
  let aggression : ℚ :=
    if markers.aggression_index > 75 then
      (if feat.is_check_or_threat then 1/5 else 0) +
      (if feat.increases_king_pressure then 3/20 else 0)
    else 0
  let trade : ℚ :=
    if markers.queen_trade_avoidance > 80 ∧ feat.is_queen_trade_offer then -(1/2) else 0
  let greed : ℚ :=
    if markers.material_greed > 70 ∧ feat.is_material_grab then 3/10 else 0
  let complexity : ℚ :=
    if markers.complexity_preference > 80 then
      (if 0 < feat.tension_delta ∧ 2 < feat.tension_delta then 1/4 else 0)
    else if markers.complexity_preference < 30 then
      (if 0 < feat.tension_delta ∧ 3 < feat.tension_delta then -(3/20) else 0)
    else 0
  let space : ℚ :=
    if markers.space_expansion > 60 ∧ feat.is_space_expansion then 3/20 else 0
  (aggression + trade + greed + complexity + space,
   ⟨aggression, complexity, trade, greed, space, 0⟩)

/-! ### Weight selector (`predictor.py`) -/

/-- `ScoutPredictor._determine_phase`. -/
def determine_phase (move_number : ℕ) : String :=
  if move_number ≤ 12 then "opening"
  else if move_number ≤ 35 then "middlegame"
  else "endgame"

/-- `ScoutPredictor.PHASE_WEIGHTS` as (history, engine, style). -/
def PHASE_WEIGHTS (phase : String) : ℚ × ℚ × ℚ :=
  if phase = "opening" then (7/10, 1/10, 2/10)
  else if phase = "middlegame" then (1/10, 4/10, 5/10)
  else (1/20, 8/10, 3/20)

/-- `ScoutPredictor.NON_OPP_TURN_WEIGHTS` as (history, engine, style). -/
def NON_OPP_TURN_WEIGHTS (phase : String) : ℚ × ℚ × ℚ :=
  if phase = "opening" then (8/10, 2/10, 0)
  else (3/10, 7/10, 0)

/-- `ScoutPredictor.HABIT_WEIGHTS`. -/
def HABIT_WEIGHTS : ℚ × ℚ × ℚ := (9/10, 1/20, 1/20)

/-- `ScoutPredictor.CHAMELEON_WEIGHTS`. -/
def CHAMELEON_WEIGHTS : ℚ × ℚ × ℚ := (1/5, 1/5, 3/5)

/-- `ScoutPredictor.LOW_SAMPLE_WEIGHTS`. -/
def LOW_SAMPLE_WEIGHTS : ℚ × ℚ × ℚ := (0, 3/10, 7/10)

/-- `ScoutPredictor._calculate_pi`: Predictability Index and sample size.
Empty history or zero total frequency gives `(0, 0)`. -/
def calculate_pi (history : List HistoryMove) : ℚ × ℕ :=
  match history with
  | [] => (0, 0)
  | _ :: _ =>
    let total := (history.map (·.frequency)).sum
    if total = 0 then (0, 0)
    else ((history.map (fun hm => ((hm.frequency : ℚ) / total) ^ 2)).sum, total)

/-- `ScoutPredictor._detect_habit`: a move with ≥ 90% share of an N ≥ 10
sample is a habit; the top move is the head of the stable descending
sort. -/
def detect_habit (history : List HistoryMove) : HabitDetection :=
  match history with
  | [] => emptyHabit
  | _ :: _ =>
    let total := (history.map (·.frequency)).sum
    if total < 10 then ⟨false, none, 0, total⟩
    else
      match sort_desc (fun hm => hm.frequency) history with
      | [] => emptyHabit
      | top :: _ =>
        let freq_pct : ℚ := ((top.frequency : ℚ) / total) * 100
        if 90 ≤ freq_pct then ⟨true, some top.move_san, freq_pct, total⟩
        else ⟨false, none, 0, total⟩

/-- `ScoutPredictor._get_dynamic_weights`: phase, then the ordered regime
rules (non-opponent turn, low sample, habit, chameleon, phase). -/
def get_dynamic_weights (move_number : ℕ) (history : List HistoryMove)
    (is_opponent_turn : Bool) : PhaseWeights × String :=
  let phase := determine_phase move_number
  if is_opponent_turn = false then
    let w := NON_OPP_TURN_WEIGHTS phase
    let n : ℕ := if history = [] then 0 else (history.map (·.frequency)).sum
    (⟨phase, w.1, w.2.1, w.2.2, 0, n, "non_opponent_turn"⟩, "non_opponent_turn")
  else
    let pn := calculate_pi history
    if pn.2 < 5 then
      (⟨phase, LOW_SAMPLE_WEIGHTS.1, LOW_SAMPLE_WEIGHTS.2.1, LOW_SAMPLE_WEIGHTS.2.2,
        pn.1, pn.2, "low_sample"⟩, "low_sample")
    else if pn.1 > 85/100 then
      (⟨phase, HABIT_WEIGHTS.1, HABIT_WEIGHTS.2.1, HABIT_WEIGHTS.2.2,
        pn.1, pn.2, "habit"⟩, "habit")
    else if pn.1 < 40/100 then
      (⟨phase, CHAMELEON_WEIGHTS.1, CHAMELEON_WEIGHTS.2.1, CHAMELEON_WEIGHTS.2.2,
        pn.1, pn.2, "chameleon"⟩, "chameleon")
    else
      let w := PHASE_WEIGHTS phase
      (⟨phase, w.1, w.2.1, w.2.2, pn.1, pn.2, "phase"⟩, "phase")

/-! ### Normalizers (`predictor.py`) -/

/-- `ScoutPredictor._normalize_history`: the Python dict over
`candidate_moves` modelled as a function; the dict comprehension's
overwrite-on-duplicate is the last matching history entry
(`reverse.find?`).  The recency weight is hard-coded to 1 in the source.
(When every listed frequency is 0 the source would raise
`ZeroDivisionError`; Lean's 0-valued rational division stands in for that
unreachable-in-practice path.) -/
def normalize_history (history : List HistoryMove) (candidate_moves : List String)
    (m : String) : ℚ :=
  if history = [] then 0
  else
    let total : ℕ := (history.map (·.frequency)).sum
    if m ∈ candidate_moves then
      match history.reverse.find? (fun hm => hm.move_san == m) with
      | some hm => if 0 < total then (hm.frequency : ℚ) / total else 0
      | none => 0
    else 0

/-- `ScoutPredictor._normalize_engine_evals`: linear rescale of `score_cp`
taking the *first* entry's score to 1 and the *last* entry's score to 0;
when those two scores coincide the divisor is set to 1, so every entry gets
`score - worst` (0 when all scores are equal — the `range = 0 → 1.0`
branch of the source is unreachable).  Sans not present give 0 (the call
site's `dict.get(move, 0)`). -/
def normalize_engine_evals (analysis : List EngineEntry) (m : String) : ℚ :=
  match analysis with
  | [] => 0
  | e₀ :: rest =>
    let best : ℤ := e₀.score_cp
    let worst : ℤ := (rest.getLastD e₀).score_cp
    let range : ℚ := if best ≠ worst then (best : ℚ) - (worst : ℚ) else 1
    match (e₀ :: rest).reverse.find? (fun e => e.move_san == m) with
    | some e => if range ≠ 0 then ((e.score_cp : ℚ) - (worst : ℚ)) / range else 1
    | none => 0

/-! ### Engine adapter (`engine.py`) -/

/-- Result dict of `EngineWrapper.analyze_single_move`. -/
structure SingleMoveResult where
  score_cp : ℤ
  score_mate : Option ℤ
deriving DecidableEq

/-- What the UCI subprocess does when `engine.analyse` is invoked on the
post-move position: raise, return an analysis without a score, or return a
centipawn / mate score. -/
inductive EngineReply where
  | raises
  | noScore
  | cp (n : ℤ)
  | mate (n : ℤ)
deriving DecidableEq

/-- The external state that one `analyze_single_move(fen, uci)` call
observes: whether the engine subprocess exists, whether `chess.Board(fen)`
and `chess.Move.from_uci(uci)` succeed, whether the parsed move is legal,
and the engine's reply. -/
structure SingleMoveEnv where
  has_engine : Bool
  fen_parses : Bool
  uci_parses : Bool
  legal : Bool
  reply : EngineReply
deriving DecidableEq

/-- `EngineWrapper.analyze_single_move`: every failure path (no engine,
unparseable FEN or UCI, illegal move, engine exception, score-less
analysis) returns the `{score_cp: -100}` sentinel; the function catches
all exceptions, so it is total. -/
def analyze_single_move (env : SingleMoveEnv) : SingleMoveResult :=
  if env.has_engine = false then ⟨-100, none⟩
  else if env.fen_parses = false then ⟨-100, none⟩
  else if env.uci_parses = false then ⟨-100, none⟩
  else if env.legal = false then ⟨-100, none⟩
  else
    match env.reply with
    | .raises => ⟨-100, none⟩
    | .noScore => ⟨-100, none⟩
    | .cp n => ⟨-n, none⟩
    | .mate n => ⟨if n > 0 then -10000 else 10000, some (-n)⟩

/-! ### Fusion machinery (`predictor.py`) -/

/-- `ScoutPredictor._softmax` with numpy semantics: divide by the
temperature, subtract the maximum, exponentiate, normalize. -/
noncomputable def softmax (scores : List ℝ) (temperature : ℝ) : List ℝ :=
  match scores.map (fun s => s / temperature) with
  | [] => []
  | h :: t =>
    let m := t.foldl max h
    let exps := (h :: t).map (fun s => Real.exp (s - m))
    exps.map (fun e => e / exps.sum)

/-- The CDF-inversion loop of `_predict_hybrid`: running cumulative sum,
first index where `r ≤ cumulative`; `none` when the loop falls through. -/
noncomputable def cdf_find (r : ℝ) : List ℝ → ℝ → Option ℕ
  | [], _ => none
  | p :: rest, cum => if r ≤ cum + p then some 0 else (cdf_find r rest (cum + p)).map (· + 1)

/-- Index selected by the CDF loop; Python's `selected_idx` stays at its
initial 0 when the loop never breaks. -/
noncomputable def select_index (probs : List ℝ) (r : ℝ) : ℕ :=
  (cdf_find r probs 0).getD 0

/-- `ScoutPredictor._select_blunder_move`: with the blunder draw below
`(blunder_rate/100) · min(1, tension/10)` and at least 4 candidates, pick
index 2 or 3 (the `random.choice([2, 3])`). -/
def select_blunder_move (candidates : List CandidateMove) (blunder_rate : ℚ)
    (tension : ℕ) (draw : ℚ) (pick_third : Bool) : Option ℕ :=
  let blunder_chance : ℚ := (blunder_rate / 100) * min 1 ((tension : ℚ) / 10)
  if draw < blunder_chance ∧ 4 ≤ candidates.length then
    some (if pick_third then 2 else 3)
  else none

/-! ### Pure history mode (`predictor._predict_pure_history`) -/

/-- The history-selection loop: iterate the stable descending-frequency
sort, return the first entry whose SAN parses to a legal move (parse
failures are swallowed by the loop's `except: continue`). -/
def select_from_history (b : Board) (history : List HistoryMove) : Option (String × String) :=
  (sort_desc (fun hm => hm.frequency) history).findSome? (fun hm =>
    match b.parse_san hm.move_san with
    | some uci => if uci ∈ b.legal_uci then some (hm.move_san, uci) else none
    | none => none)

/-- One candidate row of the pure-history response: engine data, history
share (over the raw total; the dict lookup takes the last duplicate), and
`final_prob` 100 for the selected SAN, 0 otherwise. -/
def pure_candidate (history : List HistoryMove) (selected_move : String)
    (ea : EngineEntry) : CandidateMove :=
  let hf : ℚ :=
    match history.reverse.find? (fun hm => hm.move_san == ea.move_san) with
    | some hm =>
      if history = [] then 0 else (hm.frequency : ℚ) / (history.map (·.frequency)).sum
    | none => 0
  CandidateMove.mk ea.move_san ea.move_uci ((ea.score_cp : ℚ) / 100) ea.rank hf 0 0
    (if ea.move_san == selected_move then (100 : ℝ) else 0) zeroAttribution

/-- `ScoutPredictor._predict_pure_history`.  The candidate table is built
from the engine analysis only; the selected move gets `final_prob = 100`,
every other row 0.  `none` models the `IndexError` on
`engine_analysis[0]` when the history yields nothing and the analysis is
empty (unreachable from `predict`, which guards the analysis). -/
def predict_pure_history (b : Board) (engine_analysis : List EngineEntry)
    (history : List HistoryMove) (weights : PhaseWeights) (tilt_active : Bool)
    (habit : HabitDetection) : Option PredictionResponse :=
  let selOpt : Option (String × String) :=
    match select_from_history b history with
    | some p => some p
    | none =>
      match engine_analysis with
      | [] => none
      | e :: _ => some (e.move_san, e.move_uci)
  match selOpt with
  | none => none
  | some (selected_move, selected_uci) =>
    let candidates := engine_analysis.map (pure_candidate history selected_move)
    let move_source : MoveSourceAttribution :=
      if history = [] then ⟨"engine", 0, 0, 100⟩ else ⟨"history", 100, 0, 0⟩
    let delay : ℕ :=
      if habit.detected = true ∧ habit.move = some selected_move then 500 else 1500
    some ⟨.pure_history, selected_move, selected_uci, weights, candidates,
          tilt_active, false, habit, move_source, delay⟩

/-! ### Hybrid mode (`predictor._predict_hybrid`) -/

/-- One step of the candidate-assembly loop: a history move not yet among
the candidate SANs is appended when its share is ≥ 10% or its raw
frequency is ≥ 5, provided its SAN parses to a legal move; its engine eval
comes from `analyze_single_move` (the `single_eval` oracle) and its rank
continues the engine numbering. -/
def assemble_step (b : Board) (single_eval : String → ℤ) (total_freq : ℕ) (eng_len : ℕ)
    (st : List String × List EngineEntry) (hm : HistoryMove) :
    List String × List EngineEntry :=
  if hm.move_san ∈ st.1 then st
  else
    let freq_pct : ℚ := if 0 < total_freq then (hm.frequency : ℚ) / total_freq * 100 else 0
    if 10 ≤ freq_pct ∨ 5 ≤ hm.frequency then
      match b.parse_san hm.move_san with
      | some uci =>
        if uci ∈ b.legal_uci then
          (st.1 ++ [hm.move_san],
           st.2 ++ [⟨hm.move_san, uci, single_eval uci, eng_len + st.2.length + 1⟩])
        else st
      | none => st
    else st

/-- Per-candidate fusion data of `_predict_hybrid` before the softmax. -/
structure CandInfo where
  entry : EngineEntry
  h_score : ℚ
  s_score : ℚ
  attribution : MoveAttribution
  raw : ℚ

/-- The assembled `(candidate_sans, history_additions)` pair of
`_predict_hybrid` after the candidate-assembly loop. -/
def hybrid_assembled (b : Board) (single_eval : String → ℤ) (engine_analysis : List EngineEntry)
    (history : List HistoryMove) : List String × List EngineEntry :=
  history.foldl
    (assemble_step b single_eval ((history.map (·.frequency)).sum) engine_analysis.length)
    (engine_analysis.map (·.move_san), [])

/-- `extended_analysis`: the engine's top lines followed by the history
additions. -/
def hybrid_extended (b : Board) (single_eval : String → ℤ) (engine_analysis : List EngineEntry)
    (history : List HistoryMove) : List EngineEntry :=
  engine_analysis ++ (hybrid_assembled b single_eval engine_analysis history).2

/-- Per-candidate fusion data of `_predict_hybrid`: history score from the
history normalizer over the assembled candidate SANs, engine score from
the engine normalizer over the extended analysis, style fit from the
heuristics (0 when the SAN fails to parse, per the `except` handler), and
the weighted raw score `α·H + β·E + γ·S`. -/
def hybrid_infos (b : Board) (engine_analysis : List EngineEntry)
    (history : List HistoryMove) (markers : StyleMarkers) (weights : PhaseWeights)
    (single_eval : String → ℤ) : List CandInfo :=
  let extended := hybrid_extended b single_eval engine_analysis history
  extended.map (fun ea =>
    let h := normalize_history history (hybrid_assembled b single_eval engine_analysis history).1
      ea.move_san
    let e := normalize_engine_evals extended ea.move_san
    let sa : ℚ × MoveAttribution :=
      match b.parse_san ea.move_san with
      | some uci => calculate_style_fit (b.features uci) markers
      | none => (0, zeroAttribution)
    ⟨ea, h, sa.1, sa.2, weights.history * h + weights.engine * e + weights.style * sa.1⟩)

/-- The final candidate table of `_predict_hybrid` before sorting: softmax
(temperature 0.5) of the raw scores, scaled to percent. -/
noncomputable def hybrid_final (b : Board) (engine_analysis : List EngineEntry)
    (history : List HistoryMove) (markers : StyleMarkers) (weights : PhaseWeights)
    (single_eval : String → ℤ) : List CandidateMove :=
  let infos := hybrid_infos b engine_analysis history markers weights single_eval
  let probs := softmax (infos.map (fun i => (i.raw : ℝ))) (1/2)
  List.zipWith (fun (i : CandInfo) (p : ℝ) =>
      CandidateMove.mk i.entry.move_san i.entry.move_uci ((i.entry.score_cp : ℚ) / 100)
        i.entry.rank i.h_score i.s_score i.raw (p * 100) i.attribution)
    infos probs

/-- The probability-sorted candidate table (stable, descending). -/
noncomputable def hybrid_sorted (b : Board) (engine_analysis : List EngineEntry)
    (history : List HistoryMove) (markers : StyleMarkers) (weights : PhaseWeights)
    (single_eval : String → ℤ) : List CandidateMove :=
  sort_desc (fun c => c.final_prob)
    (hybrid_final b engine_analysis history markers weights single_eval)

/-- The index selected by `_predict_hybrid`: the blunder branch's pick
when it fires, otherwise the CDF-inversion index over the sorted table. -/
noncomputable def hybrid_selected_index (b : Board) (engine_analysis : List EngineEntry)
    (history : List HistoryMove) (markers : StyleMarkers) (weights : PhaseWeights)
    (single_eval : String → ℤ) (rng : RNG) : ℕ :=
  let sorted := hybrid_sorted b engine_analysis history markers weights single_eval
  match select_blunder_move sorted markers.blunder_rate b.tension rng.blunder_draw
      rng.blunder_choice with
  | some i => i
  | none => select_index (sorted.map (·.final_prob)) ((rng.select_draw : ℝ) * 100)

/-- `ScoutPredictor._predict_hybrid`: extend the candidates with
significant history moves, normalize history and engine signals, compute
style fit, fuse with the regime weights, softmax at temperature 0.5, sort
by probability (stable, descending), then select by the blunder branch or
CDF inversion.  `none` models the (unreachable) out-of-range index. -/
noncomputable def predict_hybrid (b : Board) (engine_analysis : List EngineEntry)
    (history : List HistoryMove) (markers : StyleMarkers) (weights : PhaseWeights)
    (tilt_active : Bool) (habit : HabitDetection) (single_eval : String → ℤ)
    (rng : RNG) : Option PredictionResponse :=
  let sorted := hybrid_sorted b engine_analysis history markers weights single_eval
  let blunder_idx :=
    select_blunder_move sorted markers.blunder_rate b.tension rng.blunder_draw
      rng.blunder_choice
  let selected_idx : ℕ :=
    hybrid_selected_index b engine_analysis history markers weights single_eval rng
  match sorted[selected_idx]? with
  | none => none
  | some selected =>
    let move_source : MoveSourceAttribution :=
      ⟨if weights.history ≥ max weights.style weights.engine then "history"
        else if weights.style ≥ weights.engine then "style" else "engine",
       weights.history * 100, weights.style * 100, weights.engine * 100⟩
    let delay : ℕ :=
      if habit.detected = true ∧ habit.move = some selected.move then 500 else 1500
    some ⟨.hybrid, selected.move, selected.move_uci, weights, sorted, tilt_active,
          blunder_idx.isSome, habit, move_source, delay⟩

/-! ### Top-level prediction (`predictor.predict`, `main.predict_move`) -/

/-- The per-request external world: FEN parsing (`chess.Board(fen)`), the
Multi-PV engine call, the single-move eval oracle (keyed by FEN and UCI),
and the request's RNG draws. -/
structure PredictEnv where
  parse_fen : String → Option Board
  analyze : String → List EngineEntry
  single_eval : String → String → ℤ
  rng : RNG

/-- `ScoutPredictor.predict`: weights and habit from history, tilt from
the eval deltas, then Multi-PV analysis; an empty analysis degrades to a
uniform random legal move (or `ValueError` on a terminal position), else
dispatch on the mode.  Errors are `Except.error` (Python exceptions). -/
noncomputable def predict (env : PredictEnv) (fen : String) (mode : Mode)
    (opponent_username : String) (style_markers : StyleMarkers)
    (history_moves : List HistoryMove) (recent_eval_deltas : List ℚ)
    (move_number : ℕ) (is_opponent_turn : Bool) : Except String PredictionResponse :=
  match env.parse_fen fen with
  | none => .error "invalid FEN"
  | some board =>
    let wm := get_dynamic_weights move_number history_moves is_opponent_turn
    let habit := detect_habit history_moves
    let tilt_active := detect_tilt recent_eval_deltas 1
    let working_markers :=
      if tilt_active = true then apply_tilt_modifiers style_markers else style_markers
    match env.analyze fen with
    | [] =>
      match board.legal_uci with
      | [] => .error "No legal moves available"
      | u :: us =>
        let uci := (u :: us).getD (env.rng.fallback_choice % (u :: us).length) ""
        .ok ⟨mode, board.san_of_uci uci, uci, wm.1, [], tilt_active, false,
             emptyHabit, defaultMoveSource, 1500⟩
    | e :: es =>
      match mode with
      | .pure_history =>
        match predict_pure_history board (e :: es) history_moves wm.1 tilt_active habit with
        | some r => .ok r
        | none => .error "prediction failed"
      | .hybrid =>
        match predict_hybrid board (e :: es) history_moves working_markers wm.1
            tilt_active habit (env.single_eval board.fen) env.rng with
        | some r => .ok r
        | none => .error "prediction failed"

/-- A `/predict` request body (`models.PredictionRequest`). -/
structure PredictionRequest where
  fen : String
  mode : Mode
  opponent_username : String
  is_opponent_turn : Bool
  style_markers : StyleMarkers
  history_moves : List HistoryMove
  recent_eval_deltas : List ℚ
  move_number : ℕ

/-- The `/predict` handler (`main.predict_move`): it forwards every
request field to `ScoutPredictor.predict` *except* `is_opponent_turn`,
which it omits, so the predictor's default `True` is always used. -/
noncomputable def predict_move (env : PredictEnv) (request : PredictionRequest) :
    Except String PredictionResponse :=
  predict env request.fen request.mode request.opponent_username request.style_markers
    request.history_moves request.recent_eval_deltas request.move_number true

/-! ### Claim C4: the weight-mode decision rules -/

/-- The spec's §4.3 ordered regime rules, written from the spec's words
for refinement against `get_dynamic_weights`: not the opponent's turn →
`non_opponent_turn`; else N < 5 → `low_sample`; else π > 0.85 → `habit`;
else π < 0.40 → `chameleon`; else `phase`. -/
def spec_weight_mode (is_opponent_turn : Bool) (n : ℕ) (pi : ℚ) : String :=
  if is_opponent_turn = false then "non_opponent_turn"
  else if n < 5 then "low_sample"
  else if pi > 85/100 then "habit"
  else if pi < 40/100 then "chameleon"
  else "phase"

/-- C4: for every (is_opponent_turn, move_number, history_moves) input the
emitted `weight_mode` is exactly the spec's ordered rule table applied to
(is_opponent_turn, N, π) with N and π from `_calculate_pi`; the habit and
chameleon thresholds are strict, so π = 0.85 does not trigger `habit` and
π = 0.40 does not trigger `chameleon`. -/
theorem c4_weight_mode_rules (move_number : ℕ) (history : List HistoryMove)
    (is_opponent_turn : Bool) :
    (get_dynamic_weights move_number history is_opponent_turn).2 =
      spec_weight_mode is_opponent_turn (calculate_pi history).2 (calculate_pi history).1
    ∧ ((calculate_pi history).1 = 85/100 →
        (get_dynamic_weights move_number history is_opponent_turn).2 ≠ "habit")
    ∧ ((calculate_pi history).1 = 40/100 →
        (get_dynamic_weights move_number history is_opponent_turn).2 ≠ "chameleon") := by
  refine ⟨?_, ?_, ?_⟩
  · cases is_opponent_turn <;>
      simp only [get_dynamic_weights, spec_weight_mode] <;>
      split_ifs <;> simp_all
  · intro hpi
    cases is_opponent_turn <;>
        simp only [get_dynamic_weights, spec_weight_mode] <;>
        split_ifs with h1 h2 h3 <;> simp_all
  · intro hpi
    cases is_opponent_turn <;>
        simp only [get_dynamic_weights, spec_weight_mode] <;>
        split_ifs with h1 h2 h3 <;> simp_all

/-! ### Claim C5: the weights of every regime sum to 1 -/

/-- C5: for every input, the (α, β, γ) = (history, engine, style) weights
emitted by `_get_dynamic_weights` sum to exactly 1, in every regime. -/
theorem c5_weights_sum_to_one (move_number : ℕ) (history : List HistoryMove)
    (is_opponent_turn : Bool) :
    (get_dynamic_weights move_number history is_opponent_turn).1.history +
      (get_dynamic_weights move_number history is_opponent_turn).1.engine +
      (get_dynamic_weights move_number history is_opponent_turn).1.style = 1 := by
  cases is_opponent_turn <;>
    simp only [get_dynamic_weights, determine_phase, NON_OPP_TURN_WEIGHTS, PHASE_WEIGHTS,
      HABIT_WEIGHTS, CHAMELEON_WEIGHTS, LOW_SAMPLE_WEIGHTS] <;>
    split_ifs <;> norm_num

/-! ### Claim C8: tilt detection -/

/-- C8: `detect_tilt` (at its default threshold 1.0) fires exactly when
one of the last three eval deltas is strictly below −1; in particular a
delta of exactly −1 never triggers tilt and the empty list never triggers
tilt. -/
theorem c8_tilt_iff (deltas : List ℚ) :
    detect_tilt deltas 1 = true ↔
      ∃ d ∈ deltas.drop (deltas.length - 3), d < -1 := by
  by_cases h : deltas = []
  · subst h; simp [detect_tilt]
  · simp [detect_tilt, h, List.any_eq_true]

/-! ### Claim C9: the single-move analysis sentinel -/

/-- C9: `analyze_single_move` returns the `{score_cp: -100}` sentinel
whenever the engine is absent, the FEN or UCI fails to parse, the move is
illegal, the engine call raises, or the analysis carries no score; the
embedding is a total function (the source wraps everything in
`try/except`), so the call never raises and the caller's state is
untouched. -/
theorem c9_sentinel (env : SingleMoveEnv)
    (h : env.has_engine = false ∨ env.fen_parses = false ∨ env.uci_parses = false ∨
      env.legal = false ∨ env.reply = .raises ∨ env.reply = .noScore) :
    analyze_single_move env = ⟨-100, none⟩ := by
  unfold analyze_single_move
  rcases h with h | h | h | h | h | h <;>
    · split_ifs <;> try rfl
      all_goals (cases hr : env.reply <;> simp_all)

/-- Witness for C9 at a concrete environment with no engine process. -/
theorem c9_witness :
    analyze_single_move ⟨false, true, true, true, .cp 30⟩ = ⟨-100, none⟩ :=
  c9_sentinel ⟨false, true, true, true, .cp 30⟩ (Or.inl rfl)

/-! ### Claim C2: the engine normalizer -/

theorem find_last_san_of_nodup (l : List EngineEntry) (e : EngineEntry)
    (hnodup : (l.map (·.move_san)).Nodup) (he : e ∈ l) :
    l.reverse.find? (fun x => x.move_san == e.move_san) = some e := by
  induction l with
  | nil => cases he
  | cons a t ih =>
    simp only [List.map_cons, List.nodup_cons] at hnodup
    rw [List.mem_cons] at he
    rw [List.reverse_cons, List.find?_append]
    rcases he with rfl | he
    · have hnone : t.reverse.find? (fun x => x.move_san == e.move_san) = none := by
        rw [List.find?_eq_none]
        intro x hx
        simp only [beq_iff_eq]
        intro hsan
        exact hnodup.1 (hsan ▸ List.mem_map_of_mem (·.move_san) (List.mem_reverse.mp hx))
      simp [hnone]
    · rw [ih hnodup.2 he]
      rfl

theorem sorted_head_max (e₀ : EngineEntry) (l' : List EngineEntry)
    (hsort : List.Pairwise (fun a b => b.score_cp ≤ a.score_cp) (e₀ :: l')) :
    ∀ e ∈ e₀ :: l', e.score_cp ≤ e₀.score_cp := by
  intro e he
  rw [List.mem_cons] at he
  rcases he with rfl | he
  · exact le_refl _
  · exact (List.pairwise_cons.mp hsort).1 e he

theorem sorted_last_min (l : List EngineEntry)
    (hsort : List.Pairwise (fun a b => b.score_cp ≤ a.score_cp) l)
    (hne : l ≠ []) : ∀ e ∈ l, (l.getLast hne).score_cp ≤ e.score_cp := by
  induction l with
  | nil => cases hne rfl
  | cons a t ih =>
    intro e he
    cases t with
    | nil =>
      rw [List.mem_singleton] at he
      subst he
      simp [List.getLast]
    | cons b t' =>
      have hbt : (b :: t') ≠ [] := List.cons_ne_nil b t'
      have hlast : ((a :: b :: t').getLast hne) = ((b :: t').getLast hbt) :=
        List.getLast_cons hbt
      rw [hlast]
      rw [List.mem_cons] at he
      rcases he with rfl | he
      · exact le_trans
          (ih (List.pairwise_cons.mp hsort).2 hbt _ (List.getLast_mem hbt))
          ((List.pairwise_cons.mp hsort).1 _ (List.getLast_mem hbt))
      · exact ih (List.pairwise_cons.mp hsort).2 hbt e he

/-- C2 counterexample.  The claim says the normalizer maps the maximal
`score_cp` to 1.0 and that all-equal scores map to 1.0; on two entries
both scoring 50 the code returns 0.0 for the maximal entry (the `range=0`
branch is dead and the divisor-1 fallback yields `score - worst` = 0).
The claim also says every value lies in [0, 1]; on the unsorted extended
list a(100), b(−500), c(−100) the code normalizes b to −2, because it
takes the *last* entry (−100), not the minimum, as `worst`. -/
theorem c2_counterexample :
    (normalize_engine_evals [⟨"a", "a1", 50, 1⟩, ⟨"b", "b1", 50, 2⟩] "a" = 0 ∧
      normalize_engine_evals [⟨"a", "a1", 50, 1⟩, ⟨"b", "b1", 50, 2⟩] "a" ≠ 1) ∧
    (normalize_engine_evals
        [⟨"a", "a1", 100, 1⟩, ⟨"b", "b1", -500, 2⟩, ⟨"c", "c1", -100, 3⟩] "b" = -2 ∧
      ¬(0 ≤ normalize_engine_evals
        [⟨"a", "a1", 100, 1⟩, ⟨"b", "b1", -500, 2⟩, ⟨"c", "c1", -100, 3⟩] "b")) := by
  refine ⟨⟨?_, ?_⟩, ?_, ?_⟩ <;> simp [normalize_engine_evals] <;> norm_num

/-- C2 amended: on a non-empty candidate list that is sorted descending by
`score_cp` (as the engine's Multi-PV output is) with distinct SANs, the
normalizer maps the first entry (the maximum) to 1 and the last entry (the
minimum) to 0, interpolates linearly, and every value lies in [0, 1] —
provided the first and last scores differ.  When they coincide (all scores
equal, given sortedness) every entry is normalized to 0, not to the 1.0
the claim states. -/
theorem c2_amended (e₀ : EngineEntry) (l' : List EngineEntry)
    (hsort : List.Pairwise (fun a b => b.score_cp ≤ a.score_cp) (e₀ :: l'))
    (hnodup : ((e₀ :: l').map (·.move_san)).Nodup) :
    (∀ e ∈ e₀ :: l', 0 ≤ normalize_engine_evals (e₀ :: l') e.move_san ∧
        normalize_engine_evals (e₀ :: l') e.move_san ≤ 1)
    ∧ (e₀.score_cp ≠ (l'.getLastD e₀).score_cp →
        normalize_engine_evals (e₀ :: l') e₀.move_san = 1 ∧
        normalize_engine_evals (e₀ :: l') (l'.getLastD e₀).move_san = 0 ∧
        (∀ e ∈ e₀ :: l', normalize_engine_evals (e₀ :: l') e.move_san =
          ((e.score_cp : ℚ) - ((l'.getLastD e₀).score_cp : ℚ)) /
            ((e₀.score_cp : ℚ) - ((l'.getLastD e₀).score_cp : ℚ))))
    ∧ (e₀.score_cp = (l'.getLastD e₀).score_cp →
        ∀ e ∈ e₀ :: l', normalize_engine_evals (e₀ :: l') e.move_san = 0) := by
  have hlastD : l'.getLastD e₀ = (e₀ :: l').getLast (List.cons_ne_nil e₀ l') := by
    cases l' with
    | nil => rfl
    | cons b t => simp [List.getLastD_eq_getLast?, List.getLast?_eq_getLast]
  have hlmem : l'.getLastD e₀ ∈ e₀ :: l' := hlastD ▸ List.getLast_mem _
  have hmax : ∀ e ∈ e₀ :: l', e.score_cp ≤ e₀.score_cp := sorted_head_max e₀ l' hsort
  have hmin : ∀ e ∈ e₀ :: l', (l'.getLastD e₀).score_cp ≤ e.score_cp := by
    intro e he
    rw [hlastD]
    exact sorted_last_min (e₀ :: l') hsort (List.cons_ne_nil e₀ l') e he
  have heval : ∀ e ∈ e₀ :: l', normalize_engine_evals (e₀ :: l') e.move_san =
      (if e₀.score_cp ≠ (l'.getLastD e₀).score_cp then
        ((e.score_cp : ℚ) - ((l'.getLastD e₀).score_cp : ℚ)) /
          ((e₀.score_cp : ℚ) - ((l'.getLastD e₀).score_cp : ℚ))
       else ((e.score_cp : ℚ) - ((l'.getLastD e₀).score_cp : ℚ))) := by
    intro e he
    have hfind := find_last_san_of_nodup (e₀ :: l') e hnodup he
    simp only [normalize_engine_evals, hfind]
    split_ifs with h1 h2 h3
    · rfl
    · exact absurd (sub_ne_zero.mpr (by exact_mod_cast h1)) h2
    · exact div_one _
    · exact absurd (by norm_num : (1 : ℚ) ≠ 0) h3
  refine ⟨?_, ?_, ?_⟩
  · intro e he
    rw [heval e he]
    by_cases hbw : e₀.score_cp = (l'.getLastD e₀).score_cp
    · have : e.score_cp = (l'.getLastD e₀).score_cp :=
        le_antisymm (hbw ▸ hmax e he) (hmin e he)
      simp [hbw, this]
    · have hpos : (0 : ℚ) < (e₀.score_cp : ℚ) - ((l'.getLastD e₀).score_cp : ℚ) := by
        rw [sub_pos]
        exact_mod_cast lt_of_le_of_ne (hmin e₀ (by simp)) (Ne.symm hbw)
      rw [if_pos hbw]
      constructor
      · apply div_nonneg _ (le_of_lt hpos)
        rw [sub_nonneg]
        exact_mod_cast hmin e he
      · rw [div_le_one hpos]
        apply sub_le_sub_right
        exact_mod_cast hmax e he
  · intro hbw
    refine ⟨?_, ?_, ?_⟩
    · rw [heval e₀ (by simp), if_pos hbw, div_self]
      rw [sub_ne_zero]
      exact_mod_cast hbw
    · rw [heval (l'.getLastD e₀) hlmem, if_pos hbw, sub_self, zero_div]
    · intro e he
      rw [heval e he, if_pos hbw]
  · intro hbw e he
    have : e.score_cp = (l'.getLastD e₀).score_cp :=
      le_antisymm (hbw ▸ hmax e he) (hmin e he)
    rw [heval e he, if_neg (by simp [hbw]), this, sub_self]

/-- Witness for C2 amended at a concrete two-entry descending list. -/
theorem c2_witness :
    (∀ e ∈ [(⟨"a", "a1", 100, 1⟩ : EngineEntry), ⟨"b", "b1", 0, 2⟩],
      0 ≤ normalize_engine_evals [⟨"a", "a1", 100, 1⟩, ⟨"b", "b1", 0, 2⟩] e.move_san ∧
      normalize_engine_evals [⟨"a", "a1", 100, 1⟩, ⟨"b", "b1", 0, 2⟩] e.move_san ≤ 1) ∧
    normalize_engine_evals [⟨"a", "a1", 100, 1⟩, ⟨"b", "b1", 0, 2⟩] "a" = 1 ∧
    normalize_engine_evals [⟨"a", "a1", 100, 1⟩, ⟨"b", "b1", 0, 2⟩] "b" = 0 := by
  have h := c2_amended (⟨"a", "a1", 100, 1⟩ : EngineEntry) [⟨"b", "b1", 0, 2⟩]
    (by decide) (by decide)
  exact ⟨h.1, (h.2.1 (by decide)).1, (h.2.1 (by decide)).2.1⟩

/-! ### Concrete test fixtures shared by the counterexamples -/

/-- Feature oracle with every style feature off. -/
def testFeatures : MoveFeatures := ⟨false, false, false, false, 0, false⟩

/-- A concrete board oracle: four legal moves, SAN parsing for three of
them, zero tension, no style features. -/
def testBoard : Board :=
  ⟨"FEN0", ["g1f3", "b1c3", "e2e4", "g8h6"],
   fun s => if s = "Nf3" then some "g1f3" else if s = "Nc3" then some "b1c3"
     else if s = "Nh6" then some "g8h6" else none,
   fun u => u, 0, fun _ => testFeatures⟩

/-- A concrete weight record for direct calls into the mode handlers. -/
def testWeights : PhaseWeights := ⟨"opening", 7/10, 1/10, 1/5, 1, 6, "habit"⟩

/-- A concrete environment: the engine returns a single Multi-PV line
(e4, +30 cp), single-move evals answer −100, and the RNG draws are
fixed. -/
def testEnv : PredictEnv :=
  ⟨fun f => if f = "FEN0" then some testBoard else none,
   fun _ => [⟨"e4", "e2e4", 30, 1⟩],
   fun _ _ => -100,
   ⟨1/2, true, 3/5, 0⟩⟩

/-! ### Claim C6: permuting the history -/

/-- C6 counterexample.  The two histories are permutations of each other
(two moves, tied frequency 5).  Python's stable descending sort keeps the
input order on ties, and pure-history mode picks the first legal entry, so
the selected move flips from Nf3 to Nc3: the prediction result is *not*
invariant under permuting `history_moves`. -/
theorem c6_counterexample :
    ([⟨"Nf3", 5⟩, ⟨"Nc3", 5⟩] : List HistoryMove).Perm [⟨"Nc3", 5⟩, ⟨"Nf3", 5⟩] ∧
    (predict testEnv "FEN0" .pure_history "opp" defaultMarkers
        [⟨"Nf3", 5⟩, ⟨"Nc3", 5⟩] [] 1 true).toOption.map (·.selected_move) = some "Nf3" ∧
    (predict testEnv "FEN0" .pure_history "opp" defaultMarkers
        [⟨"Nc3", 5⟩, ⟨"Nf3", 5⟩] [] 1 true).toOption.map (·.selected_move) = some "Nc3" := by
  have hsel₁ : select_from_history testBoard [⟨"Nf3", 5⟩, ⟨"Nc3", 5⟩] =
      some ("Nf3", "g1f3") := by
    simp [select_from_history, sort_desc, stable_insert, testBoard]
  have hsel₂ : select_from_history testBoard [⟨"Nc3", 5⟩, ⟨"Nf3", 5⟩] =
      some ("Nc3", "b1c3") := by
    simp [select_from_history, sort_desc, stable_insert, testBoard]
  refine ⟨by decide, ?_, ?_⟩ <;>
    norm_num [predict, testEnv, predict_pure_history, hsel₁, hsel₂, get_dynamic_weights,
      calculate_pi, detect_habit, detect_tilt, determine_phase, PHASE_WEIGHTS, emptyHabit,
      sort_desc, stable_insert, List.find?, Except.toOption, Option.map]

theorem detect_habit_sample_size (h : List HistoryMove) :
    (detect_habit h).sample_size = if h = [] then 0 else (h.map (·.frequency)).sum := by
  cases h with
  | nil => rfl
  | cons a t =>
    rw [if_neg (List.cons_ne_nil a t)]
    simp only [detect_habit]
    split_ifs with h10
    · rfl
    · cases hs : sort_desc (fun hm => hm.frequency) (a :: t) with
      | nil =>
        have hp := sort_desc_perm (fun hm : HistoryMove => hm.frequency) (a :: t)
        rw [hs] at hp
        exact absurd hp.symm.eq_nil (List.cons_ne_nil a t)
      | cons top rest =>
        dsimp only
        split_ifs <;> rfl

theorem two_mem_freq_sum (f : HistoryMove → ℕ) (l : List HistoryMove)
    (a b : HistoryMove) (ha : a ∈ l) (hb : b ∈ l) (hab : a ≠ b) :
    f a + f b ≤ (l.map f).sum := by
  obtain ⟨s, t, rfl⟩ := List.append_of_mem ha
  have hb' : b ∈ s ++ t := by
    rcases List.mem_append.mp hb with h | h
    · exact List.mem_append.mpr (Or.inl h)
    · rcases List.mem_cons.mp h with rfl | h
      · exact absurd rfl hab
      · exact List.mem_append.mpr (Or.inr h)
  have hfb : f b ≤ ((s ++ t).map f).sum :=
    List.single_le_sum (fun x _ => Nat.zero_le x) _ (List.mem_map_of_mem f hb')
  simp only [List.map_append, List.map_cons, List.sum_append, List.sum_cons] at hfb ⊢
  omega

theorem sorted_head_max_freq (a : HistoryMove) (l : List HistoryMove)
    (hsort : List.Pairwise (fun x y => y.frequency ≤ x.frequency) (a :: l)) :
    ∀ x ∈ a :: l, x.frequency ≤ a.frequency := by
  intro x hx
  rw [List.mem_cons] at hx
  rcases hx with rfl | hx
  · exact le_refl _
  · exact (List.pairwise_cons.mp hsort).1 x hx

/-- `_detect_habit` is permutation-invariant: both non-detected branches
carry only the (permutation-invariant) total, and the detected branch
forces the top frequency to hold ≥ 90% of an N ≥ 10 sample, which a tied
maximum (capped at 50%) can never do — so the reported habit move is the
unique maximum. -/
theorem detect_habit_perm (h₁ h₂ : List HistoryMove) (hperm : h₁.Perm h₂) :
    detect_habit h₁ = detect_habit h₂ := by
  have htot : (h₁.map (·.frequency)).sum = (h₂.map (·.frequency)).sum :=
    (hperm.map (·.frequency)).sum_eq
  cases h₁ with
  | nil => rw [hperm.symm.eq_nil]
  | cons a t =>
    cases h₂ with
    | nil => exact absurd hperm.eq_nil (List.cons_ne_nil a t)
    | cons b u =>
      simp only [detect_habit]
      rw [htot]
      by_cases h10 : ((b :: u).map (·.frequency)).sum < 10
      · rw [if_pos h10, if_pos h10]
      · rw [if_neg h10, if_neg h10]
        cases hs₁ : sort_desc (fun hm => hm.frequency) (a :: t) with
        | nil =>
          have hp := sort_desc_perm (fun hm : HistoryMove => hm.frequency) (a :: t)
          rw [hs₁] at hp
          exact absurd hp.symm.eq_nil (List.cons_ne_nil a t)
        | cons top₁ r₁ =>
          cases hs₂ : sort_desc (fun hm => hm.frequency) (b :: u) with
          | nil =>
            have hp := sort_desc_perm (fun hm : HistoryMove => hm.frequency) (b :: u)
            rw [hs₂] at hp
            exact absurd hp.symm.eq_nil (List.cons_ne_nil b u)
          | cons top₂ r₂ =>
            have hmax₁ : ∀ x ∈ a :: t, x.frequency ≤ top₁.frequency := by
              intro x hx
              have hsort := sort_desc_sorted (fun hm : HistoryMove => hm.frequency) (a :: t)
              rw [hs₁] at hsort
              refine sorted_head_max_freq top₁ r₁ hsort x ?_
              rw [← hs₁]
              exact ((sort_desc_perm (fun hm : HistoryMove => hm.frequency)
                (a :: t)).symm.mem_iff).mp hx
            have hmax₂ : ∀ x ∈ b :: u, x.frequency ≤ top₂.frequency := by
              intro x hx
              have hsort := sort_desc_sorted (fun hm : HistoryMove => hm.frequency) (b :: u)
              rw [hs₂] at hsort
              refine sorted_head_max_freq top₂ r₂ hsort x ?_
              rw [← hs₂]
              exact ((sort_desc_perm (fun hm : HistoryMove => hm.frequency)
                (b :: u)).symm.mem_iff).mp hx
            have htop₁mem : top₁ ∈ a :: t := by
              have hm : top₁ ∈ top₁ :: r₁ := List.mem_cons_self top₁ r₁
              rw [← hs₁] at hm
              exact ((sort_desc_perm (fun hm : HistoryMove => hm.frequency)
                (a :: t)).mem_iff).mp hm
            have htop₂mem : top₂ ∈ b :: u := by
              have hm : top₂ ∈ top₂ :: r₂ := List.mem_cons_self top₂ r₂
              rw [← hs₂] at hm
              exact ((sort_desc_perm (fun hm : HistoryMove => hm.frequency)
                (b :: u)).mem_iff).mp hm
            have htopfreq : top₁.frequency = top₂.frequency :=
              le_antisymm (hmax₂ top₁ (hperm.mem_iff.mp htop₁mem))
                (hmax₁ top₂ (hperm.mem_iff.mpr htop₂mem))
            dsimp only
            rw [htopfreq]
            by_cases h90 : (90 : ℚ) ≤
                ((top₂.frequency : ℚ) / (((b :: u).map (·.frequency)).sum : ℕ)) * 100
            · have htopeq : top₁ = top₂ := by
                by_contra hne
                have hsum := two_mem_freq_sum (·.frequency) (a :: t) top₁ top₂
                  htop₁mem (hperm.mem_iff.mpr htop₂mem) hne
                simp only at hsum
                rw [htopfreq, htot] at hsum
                have hT : (10 : ℕ) ≤ ((b :: u).map (·.frequency)).sum :=
                  Nat.le_of_not_lt h10
                have hTq : (10 : ℚ) ≤ (((((b :: u).map (·.frequency)).sum : ℕ)) : ℚ) := by
                  exact_mod_cast hT
                have hsq : (top₂.frequency : ℚ) + (top₂.frequency : ℚ) ≤
                    (((((b :: u).map (·.frequency)).sum : ℕ)) : ℚ) := by
                  exact_mod_cast hsum
                have hT0 : (0 : ℚ) < (((((b :: u).map (·.frequency)).sum : ℕ)) : ℚ) :=
                  lt_of_lt_of_le (by norm_num) hTq
                rw [div_mul_eq_mul_div, le_div_iff₀ hT0] at h90
                linarith
              rw [if_pos h90, if_pos h90, htopeq]
            · rw [if_neg h90, if_neg h90]

/-- C6 amended: permuting `history_moves` cannot change the Predictability
Index, the sample size, the full weight record (and hence the weight
mode), or the entire habit detection output — the first three depend on
the history only through sums, and the habit banner requires a ≥ 90%
share of an N ≥ 10 sample, which a tied maximum (at most 50%) can never
reach, so the reported habit move is the unique maximum.  The selected
move and candidate table, however, may change when frequencies tie (see
the counterexample), because the stable sort reads the input order. -/
theorem c6_amended_invariants (move_number : ℕ) (is_opponent_turn : Bool)
    (h₁ h₂ : List HistoryMove) (hperm : h₁.Perm h₂) :
    calculate_pi h₁ = calculate_pi h₂ ∧
    get_dynamic_weights move_number h₁ is_opponent_turn =
      get_dynamic_weights move_number h₂ is_opponent_turn ∧
    detect_habit h₁ = detect_habit h₂ := by
  have htot : (h₁.map (·.frequency)).sum = (h₂.map (·.frequency)).sum :=
    (hperm.map (·.frequency)).sum_eq
  have hnil : h₁ = [] ↔ h₂ = [] := by
    constructor
    · intro h; subst h; exact hperm.symm.eq_nil
    · intro h; subst h; exact hperm.eq_nil
  have hpi : calculate_pi h₁ = calculate_pi h₂ := by
    cases h₁ with
    | nil =>
      rw [hnil.mp rfl]
    | cons a t =>
      cases h₂ with
      | nil => exact absurd (hnil.mpr rfl) (List.cons_ne_nil a t)
      | cons b u =>
        simp only [calculate_pi]
        rw [htot]
        by_cases hz : (((b :: u).map (·.frequency)).sum : ℕ) = 0
        · rw [if_pos hz, if_pos hz]
        · rw [if_neg hz, if_neg hz]
          congr 1
          exact (hperm.map _).sum_eq
  have hifn : (if h₁ = [] then 0 else (h₁.map (·.frequency)).sum) =
      (if h₂ = [] then 0 else (h₂.map (·.frequency)).sum) := by
    by_cases hn : h₁ = []
    · rw [if_pos hn, if_pos (hnil.mp hn)]
    · rw [if_neg hn, if_neg (fun hh => hn (hnil.mpr hh)), htot]
  refine ⟨hpi, ?_, detect_habit_perm h₁ h₂ hperm⟩
  simp only [get_dynamic_weights, hpi, hifn]

/-- Witness for C6 amended at a concrete two-element permutation. -/
theorem c6_witness :
    calculate_pi [⟨"a", 1⟩, ⟨"b", 2⟩] = calculate_pi [⟨"b", 2⟩, ⟨"a", 1⟩] ∧
    get_dynamic_weights 1 [⟨"a", 1⟩, ⟨"b", 2⟩] true =
      get_dynamic_weights 1 [⟨"b", 2⟩, ⟨"a", 1⟩] true ∧
    detect_habit [⟨"a", 1⟩, ⟨"b", 2⟩] = detect_habit [⟨"b", 2⟩, ⟨"a", 1⟩] :=
  c6_amended_invariants 1 true [⟨"a", 1⟩, ⟨"b", 2⟩] [⟨"b", 2⟩, ⟨"a", 1⟩] (by decide)

/-! ### Claim C3: pure-history mode -/

theorem findSome?_eq_some_split {α β : Type} (f : α → Option β) (l : List α) (v : β)
    (h : l.findSome? f = some v) :
    ∃ l₁ x l₂, l = l₁ ++ x :: l₂ ∧ f x = some v ∧ ∀ y ∈ l₁, f y = none := by
  induction l with
  | nil => simp [List.findSome?] at h
  | cons a t ih =>
    rw [List.findSome?_cons] at h
    cases hfa : f a with
    | some b =>
      rw [hfa] at h
      have hb : some b = some v := h
      exact ⟨[], a, t, by simp, by rw [hfa]; exact hb, by simp⟩
    | none =>
      rw [hfa] at h
      obtain ⟨l₁, x, l₂, hsplit, hx, hnone⟩ := ih h
      refine ⟨a :: l₁, x, l₂, by rw [hsplit]; simp, hx, ?_⟩
      intro y hy
      rw [List.mem_cons] at hy
      rcases hy with rfl | hy
      · exact hfa
      · exact hnone y hy

/-- A SAN string that parses to a legal move on the board. -/
def san_legal (b : Board) (san : String) : Prop :=
  ∃ u, b.parse_san san = some u ∧ u ∈ b.legal_uci

theorem select_from_history_spec (b : Board) (history : List HistoryMove) (san uci : String)
    (h : select_from_history b history = some (san, uci)) :
    ∃ hm ∈ history, hm.move_san = san ∧ b.parse_san san = some uci ∧ uci ∈ b.legal_uci ∧
      ∀ hm₂ ∈ history, san_legal b hm₂.move_san → hm₂.frequency ≤ hm.frequency := by
  obtain ⟨l₁, x, l₂, hsplit, hx, hnone⟩ := findSome?_eq_some_split _ _ _ h
  have hperm := sort_desc_perm (fun hm : HistoryMove => hm.frequency) history
  have hsorted := sort_desc_sorted (fun hm : HistoryMove => hm.frequency) history
  rw [hsplit] at hperm hsorted
  have hxmem : x ∈ history := hperm.mem_iff.mp (by simp)
  have hxval : x.move_san = san ∧ b.parse_san x.move_san = some uci ∧ uci ∈ b.legal_uci := by
    cases hp : b.parse_san x.move_san with
    | none =>
      rw [hp] at hx
      exact absurd (show (none : Option (String × String)) = some (san, uci) from hx)
        (by simp)
    | some u =>
      rw [hp] at hx
      have hx' : (if u ∈ b.legal_uci then some (x.move_san, u) else none) =
          some (san, uci) := hx
      by_cases hmem : u ∈ b.legal_uci
      · rw [if_pos hmem] at hx'
        have hpair := Option.some.inj hx'
        have h1 : x.move_san = san := congrArg Prod.fst hpair
        have h2 : u = uci := congrArg Prod.snd hpair
        exact ⟨h1, congrArg some h2, h2 ▸ hmem⟩
      · rw [if_neg hmem] at hx'
        cases hx'
  refine ⟨x, hxmem, hxval.1, hxval.1 ▸ hxval.2.1, hxval.2.2, ?_⟩
  intro hm₂ hmem₂ hleg₂
  have hmem₂s : hm₂ ∈ l₁ ++ x :: l₂ := hperm.mem_iff.mpr hmem₂
  rw [List.mem_append] at hmem₂s
  rcases hmem₂s with hin₁ | hin₂
  · exfalso
    obtain ⟨u₂, hu₂, hu₂m⟩ := hleg₂
    have hn := hnone hm₂ hin₁
    rw [hu₂] at hn
    have hn₂ : (if u₂ ∈ b.legal_uci then some (hm₂.move_san, u₂) else none) =
        (none : Option (String × String)) := hn
    rw [if_pos hu₂m] at hn₂
    cases hn₂
  · rw [List.mem_cons] at hin₂
    rcases hin₂ with rfl | hin₂
    · exact le_refl _
    · have hpair := (List.pairwise_append.mp hsorted).2.1
      exact (List.pairwise_cons.mp hpair).1 hm₂ hin₂

/-- C3 counterexample.  A pure-history request with non-empty history
whose single (legal) move Nh6 is *not* among the engine's Multi-PV moves:
the selection is Nh6, but the candidate table — built from the engine
analysis only — contains exactly one candidate, e4, with final_prob 0.  No
candidate carries final_prob = 100, contradicting the claimed "exactly
one". -/
theorem c3_counterexample :
    ([⟨"Nh6", 7⟩] : List HistoryMove) ≠ [] ∧
    san_legal testBoard "Nh6" ∧
    (predict testEnv "FEN0" .pure_history "opp" defaultMarkers
        [⟨"Nh6", 7⟩] [] 1 true).toOption.map
      (fun r => (r.selected_move, r.candidates.map (fun c => (c.move, c.final_prob)))) =
      some ("Nh6", [("e4", (0 : ℝ))]) := by
  have hsel : select_from_history testBoard [⟨"Nh6", 7⟩] = some ("Nh6", "g8h6") := by
    simp [select_from_history, sort_desc, stable_insert, testBoard]
  refine ⟨by simp, ⟨"g8h6", by simp [testBoard], by simp [testBoard]⟩, ?_⟩
  norm_num [predict, testEnv, predict_pure_history, pure_candidate, hsel,
    get_dynamic_weights, calculate_pi, detect_habit, detect_tilt, determine_phase,
    HABIT_WEIGHTS, emptyHabit, sort_desc, stable_insert, List.find?, Except.toOption,
    Option.map]
  decide

/-- C3 amended: in pure-history mode with a non-empty history containing
at least one legal listed move, the selected move is a legal history move
of maximal frequency among the legal listed ones (the first such in the
stable descending iteration); every candidate's final_prob is 100 or 0;
the candidate table mirrors the engine analysis; and there is exactly one
candidate with final_prob = 100 *when the selected move appears among the
engine analysis' SANs* (given distinct SANs) — when it does not, every
candidate has final_prob = 0 and the claimed "exactly one" fails. -/
theorem c3_amended_pure_history (b : Board) (eng : List EngineEntry)
    (history : List HistoryMove) (weights : PhaseWeights) (tilt : Bool)
    (habit : HabitDetection) (hhist : history ≠ [])
    (hlegal : ∃ hm ∈ history, san_legal b hm.move_san) :
    ∃ r, predict_pure_history b eng history weights tilt habit = some r ∧
      (∃ hm ∈ history, r.selected_move = hm.move_san ∧ san_legal b hm.move_san ∧
        ∀ hm₂ ∈ history, san_legal b hm₂.move_san → hm₂.frequency ≤ hm.frequency) ∧
      (∀ c ∈ r.candidates, c.final_prob = 100 ∨ c.final_prob = 0) ∧
      r.candidates.map (·.move) = eng.map (·.move_san) ∧
      ((eng.map (·.move_san)).Nodup → r.selected_move ∈ eng.map (·.move_san) →
        ∃ i, ∃ hi : i < r.candidates.length,
          (r.candidates.get ⟨i, hi⟩).final_prob = 100 ∧
          ∀ j, ∀ hj : j < r.candidates.length, j ≠ i →
            (r.candidates.get ⟨j, hj⟩).final_prob = 0) ∧
      (r.selected_move ∉ eng.map (·.move_san) → ∀ c ∈ r.candidates, c.final_prob = 0) := by
  obtain ⟨hm₀, hmem₀, u₀, hu₀, hu₀m⟩ := hlegal
  have hsel : ∃ p, select_from_history b history = some p := by
    cases hs : select_from_history b history with
    | some p => exact ⟨p, rfl⟩
    | none =>
      exfalso
      unfold select_from_history at hs
      rw [List.findSome?_eq_none_iff] at hs
      have hmm : hm₀ ∈ sort_desc (fun hm : HistoryMove => hm.frequency) history :=
        (sort_desc_perm _ history).mem_iff.mpr hmem₀
      have hn := hs hm₀ hmm
      rw [hu₀] at hn
      have hn₂ : (if u₀ ∈ b.legal_uci then some (hm₀.move_san, u₀) else none) =
          (none : Option (String × String)) := hn
      rw [if_pos hu₀m] at hn₂
      cases hn₂
  obtain ⟨⟨san, uci⟩, hsel⟩ := hsel
  obtain ⟨hm, hmmem, hmsan, hparse, hmemu, hmax⟩ :=
    select_from_history_spec b history san uci hsel
  have hrun : predict_pure_history b eng history weights tilt habit = some
      ⟨.pure_history, san, uci, weights, eng.map (pure_candidate history san), tilt, false,
       habit, (if history = [] then ⟨"engine", 0, 0, 100⟩ else ⟨"history", 100, 0, 0⟩),
       (if habit.detected = true ∧ habit.move = some san then 500 else 1500)⟩ := by
    rw [predict_pure_history.eq_def, hsel]
  refine ⟨_, hrun, ?_, ?_, ?_, ?_, ?_⟩
  · exact ⟨hm, hmmem, hmsan.symm, hmsan ▸ ⟨uci, hparse, hmemu⟩, hmax⟩
  · intro c hc
    rw [List.mem_map] at hc
    obtain ⟨ea, _, rfl⟩ := hc
    by_cases he : (ea.move_san == san) = true
    · left; simp [pure_candidate, he]
    · right; simp [pure_candidate, he]
  · rw [List.map_map]; rfl
  · intro hnodup hselmem
    have hselmem' : san ∈ eng.map (·.move_san) := hselmem
    rw [List.mem_map] at hselmem'
    obtain ⟨ea, heamem, heasan⟩ := hselmem'
    obtain ⟨i, hi, hieq⟩ := List.mem_iff_getElem.mp heamem
    have hleni : i < (eng.map (pure_candidate history san)).length := by simpa using hi
    have hbeq : (eng[i].move_san == san) = true := by
      rw [beq_iff_eq, hieq]; exact heasan
    refine ⟨i, hleni, ?_, ?_⟩
    · simp only [List.get_eq_getElem, List.getElem_map, pure_candidate]
      simp [hbeq]
    · intro j hj hji
      have hj' : j < eng.length := by simpa using hj
      have hjm : j < (eng.map (·.move_san)).length := by simpa using hj'
      have him : i < (eng.map (·.move_san)).length := by simpa using hi
      have hne : (eng[j].move_san == san) = false := by
        rw [beq_eq_false_iff_ne]
        intro hb
        apply hji
        have h1 : (eng.map (·.move_san)).get ⟨j, hjm⟩ =
            (eng.map (·.move_san)).get ⟨i, him⟩ := by
          simp only [List.get_eq_getElem, List.getElem_map]
          rw [hb, hieq, heasan]
        have h2 : (⟨j, hjm⟩ : Fin _) = ⟨i, him⟩ :=
          (List.Nodup.get_inj_iff hnodup).mp h1
        exact congrArg Fin.val h2
      simp only [List.get_eq_getElem, List.getElem_map, pure_candidate]
      simp [hne]
  · intro hnot c hc
    have hnot' : san ∉ eng.map (·.move_san) := hnot
    rw [List.mem_map] at hc
    obtain ⟨ea, heamem, rfl⟩ := hc
    have hne : ¬(ea.move_san == san) = true := by
      rw [beq_iff_eq]
      intro hb
      exact hnot' (hb ▸ List.mem_map_of_mem (·.move_san) heamem)
    simp [pure_candidate, hne]

/-- Witness for C3 amended: a concrete request with empty engine overlap
handled, here with the selected history move present among the engine
SANs, exercising the exactly-one branch. -/
theorem c3_witness :
    ∃ r, predict_pure_history testBoard [⟨"Nf3", "g1f3", 25, 1⟩] [⟨"Nf3", 6⟩] testWeights
        false emptyHabit = some r ∧
      (∃ hm ∈ [(⟨"Nf3", 6⟩ : HistoryMove)], r.selected_move = hm.move_san ∧
        san_legal testBoard hm.move_san ∧
        ∀ hm₂ ∈ [(⟨"Nf3", 6⟩ : HistoryMove)], san_legal testBoard hm₂.move_san →
          hm₂.frequency ≤ hm.frequency) ∧
      (∀ c ∈ r.candidates, c.final_prob = 100 ∨ c.final_prob = 0) ∧
      r.candidates.map (·.move) = [(⟨"Nf3", "g1f3", 25, 1⟩ : EngineEntry)].map (·.move_san) ∧
      (([(⟨"Nf3", "g1f3", 25, 1⟩ : EngineEntry)].map (·.move_san)).Nodup →
        r.selected_move ∈ [(⟨"Nf3", "g1f3", 25, 1⟩ : EngineEntry)].map (·.move_san) →
        ∃ i, ∃ hi : i < r.candidates.length,
          (r.candidates.get ⟨i, hi⟩).final_prob = 100 ∧
          ∀ j, ∀ hj : j < r.candidates.length, j ≠ i →
            (r.candidates.get ⟨j, hj⟩).final_prob = 0) ∧
      (r.selected_move ∉ [(⟨"Nf3", "g1f3", 25, 1⟩ : EngineEntry)].map (·.move_san) →
        ∀ c ∈ r.candidates, c.final_prob = 0) :=
  c3_amended_pure_history testBoard [⟨"Nf3", "g1f3", 25, 1⟩] [⟨"Nf3", 6⟩] testWeights
    false emptyHabit (by simp)
    ⟨⟨"Nf3", 6⟩, by simp, "g1f3", by simp [testBoard], by simp [testBoard]⟩

/-! ### Claim C1: probabilities sum to 100 and the selection is a candidate -/

theorem sum_map_div (l : List ℝ) (S : ℝ) : (l.map (fun e => e / S)).sum = l.sum / S := by
  induction l with
  | nil => simp
  | cons a t ih => simp [ih, add_div]

theorem sum_map_mul_hundred (l : List ℝ) : (l.map (· * 100)).sum = l.sum * 100 := by
  induction l with
  | nil => simp
  | cons a t ih => simp [ih]; ring

theorem map_div_sum_self (l : List ℝ) (hl : 0 < l.sum) :
    (l.map (fun e => e / l.sum)).sum = 1 := by
  rw [sum_map_div, div_self (ne_of_gt hl)]

theorem softmax_length (scores : List ℝ) (T : ℝ) :
    (softmax scores T).length = scores.length := by
  unfold softmax
  cases scores with
  | nil => rfl
  | cons s rest => simp

theorem softmax_sum_one (scores : List ℝ) (T : ℝ) (h : scores ≠ []) :
    (softmax scores T).sum = 1 := by
  obtain ⟨s, rest, rfl⟩ := List.exists_cons_of_ne_nil h
  show ((((s / T) :: rest.map (fun x => x / T)).map
      (fun x => Real.exp (x - (rest.map (fun x => x / T)).foldl max (s / T)))).map
      (fun e => e / (((s / T) :: rest.map (fun x => x / T)).map
        (fun x => Real.exp (x - (rest.map (fun x => x / T)).foldl max (s / T)))).sum)).sum = 1
  apply map_div_sum_self
  apply List.sum_pos
  · intro x hx
    rw [List.mem_map] at hx
    obtain ⟨y, _, rfl⟩ := hx
    exact Real.exp_pos _
  · simp

theorem cdf_find_lt_length (r : ℝ) :
    ∀ (l : List ℝ) (cum : ℝ) (i : ℕ), cdf_find r l cum = some i → i < l.length := by
  intro l
  induction l with
  | nil => intro cum i h; cases h
  | cons p rest ih =>
    intro cum i h
    rw [cdf_find] at h
    by_cases hc : r ≤ cum + p
    · rw [if_pos hc] at h
      rw [← Option.some.inj h]
      simp
    · rw [if_neg hc] at h
      cases hfind : cdf_find r rest (cum + p) with
      | none => rw [hfind] at h; cases h
      | some j =>
        rw [hfind] at h
        have hj := ih (cum + p) j hfind
        have : j + 1 = i := Option.some.inj h
        rw [← this]
        simpa using hj

theorem select_index_lt_length (probs : List ℝ) (r : ℝ) (h : probs ≠ []) :
    select_index probs r < probs.length := by
  unfold select_index
  cases hc : cdf_find r probs 0 with
  | none => simpa using List.length_pos.mpr h
  | some i => simpa using cdf_find_lt_length r probs 0 i hc

theorem zipWith_final_prob_map (infos : List CandInfo) (probs : List ℝ)
    (hlen : infos.length = probs.length) :
    ((List.zipWith (fun (i : CandInfo) (p : ℝ) =>
        CandidateMove.mk i.entry.move_san i.entry.move_uci ((i.entry.score_cp : ℚ) / 100)
          i.entry.rank i.h_score i.s_score i.raw (p * 100) i.attribution)
      infos probs).map (·.final_prob)) = probs.map (· * 100) := by
  induction infos generalizing probs with
  | nil =>
    cases probs with
    | nil => rfl
    | cons p ps => simp at hlen
  | cons a t ih =>
    cases probs with
    | nil => simp at hlen
    | cons p ps =>
      simp only [List.zipWith_cons_cons, List.map_cons]
      rw [ih ps (by simpa using hlen)]

theorem sum_beq_indicator (eng : List EngineEntry) (s : String)
    (hnd : (eng.map (·.move_san)).Nodup) (hmem : s ∈ eng.map (·.move_san)) :
    (eng.map (fun ea => if (ea.move_san == s) = true then (100 : ℝ) else 0)).sum = 100 := by
  induction eng with
  | nil => cases hmem
  | cons a t ih =>
    simp only [List.map_cons, List.nodup_cons] at hnd
    rw [List.map_cons] at hmem
    rw [List.mem_cons] at hmem
    simp only [List.map_cons, List.sum_cons]
    rcases hmem with rfl | hmem
    · rw [if_pos (by rw [beq_iff_eq])]
      have hz : (t.map (fun ea => if (ea.move_san == a.move_san) = true then (100 : ℝ)
          else 0)).sum = 0 := by
        apply List.sum_eq_zero
        intro y hy
        rw [List.mem_map] at hy
        obtain ⟨ea, hea, rfl⟩ := hy
        rw [if_neg]
        rw [beq_iff_eq]
        intro he
        exact hnd.1 (he ▸ List.mem_map_of_mem (·.move_san) hea)
      rw [hz]
      norm_num
    · have ha : (a.move_san == s) = false := by
        rw [beq_eq_false_iff_ne]
        intro he
        exact hnd.1 (he ▸ hmem)
      rw [ha]
      simp only [Bool.false_eq_true, if_false, ih hnd.2 hmem, zero_add]

theorem predict_pure_history_shape (b : Board) (eng : List EngineEntry)
    (history : List HistoryMove) (weights : PhaseWeights) (tilt : Bool)
    (habit : HabitDetection) (r : PredictionResponse)
    (h : predict_pure_history b eng history weights tilt habit = some r) :
    ∃ sel, r.selected_move = sel ∧
      r.candidates = eng.map (pure_candidate history sel) := by
  cases hs : select_from_history b history with
  | some p =>
    obtain ⟨sel, uci⟩ := p
    rw [predict_pure_history.eq_def, hs] at h
    have h2 := Option.some.inj h
    exact ⟨sel, by rw [← h2], by rw [← h2]⟩
  | none =>
    cases eng with
    | nil => rw [predict_pure_history.eq_def, hs] at h; cases h
    | cons e es =>
      rw [predict_pure_history.eq_def, hs] at h
      have h2 := Option.some.inj h
      exact ⟨e.move_san, by rw [← h2], by rw [← h2]⟩

/-- C1 counterexample.  A pure-history request (the claim covers both
modes) on a non-terminal position with a non-empty engine analysis, whose
history-selected move Nh6 lies outside the engine's Multi-PV list: every
candidate's final_prob is 0, so the final_prob sum is 0 — not within 0.01
of 100 — and the selected move is not the SAN of any candidate. -/
theorem c1_counterexample :
    (predict testEnv "FEN0" .pure_history "opp" defaultMarkers
        [⟨"Nh6", 5⟩] [] 1 true).toOption.map
      (fun r => ((r.candidates.map (·.final_prob)).sum, r.selected_move,
        r.candidates.map (·.move))) = some ((0 : ℝ), "Nh6", ["e4"]) ∧
    ¬|(0 : ℝ) - 100| ≤ 1/100 ∧ "Nh6" ∉ ["e4"] := by
  refine ⟨?_, by norm_num, by decide⟩
  have hsel : select_from_history testBoard [⟨"Nh6", 5⟩] = some ("Nh6", "g8h6") := by
    simp [select_from_history, sort_desc, stable_insert, testBoard]
  norm_num [predict, testEnv, predict_pure_history, pure_candidate, hsel,
    get_dynamic_weights, calculate_pi, detect_habit, detect_tilt, determine_phase,
    HABIT_WEIGHTS, emptyHabit, sort_desc, stable_insert, List.find?, Except.toOption,
    Option.map]
  decide

/-- C1 amended: in hybrid mode (non-empty engine analysis) the candidates'
final_prob values always sum to exactly 100 in real arithmetic (the
softmax normalizes) and the selected move is the SAN of some candidate.
In pure-history mode the same holds *provided* the selected move appears
among the engine analysis' SANs (with distinct SANs); otherwise the
candidate table carries total probability 0 and omits the selected move
(see the counterexample). -/
theorem c1_amended_totals (b : Board) (eng : List EngineEntry) (history : List HistoryMove)
    (markers : StyleMarkers) (weights : PhaseWeights) (tilt : Bool) (habit : HabitDetection)
    (single_eval : String → ℤ) (rng : RNG) :
    (∀ r, predict_pure_history b eng history weights tilt habit = some r →
      (eng.map (·.move_san)).Nodup → r.selected_move ∈ eng.map (·.move_san) →
      (r.candidates.map (·.final_prob)).sum = 100 ∧
        r.selected_move ∈ r.candidates.map (·.move)) ∧
    (eng ≠ [] →
      ∃ r, predict_hybrid b eng history markers weights tilt habit single_eval rng = some r ∧
        (r.candidates.map (·.final_prob)).sum = 100 ∧
        r.selected_move ∈ r.candidates.map (·.move)) := by
  constructor
  · intro r hr hnd hmem
    obtain ⟨sel, hselr, hcands⟩ := predict_pure_history_shape b eng history weights tilt
      habit r hr
    rw [hselr] at hmem
    constructor
    · rw [hcands, List.map_map]
      have hfun : ((fun c : CandidateMove => c.final_prob) ∘ pure_candidate history sel) =
          (fun ea : EngineEntry => if (ea.move_san == sel) = true then (100 : ℝ) else 0) :=
        rfl
      rw [hfun]
      exact sum_beq_indicator eng sel hnd hmem
    · rw [hselr, hcands, List.map_map]
      have hfun : ((fun c : CandidateMove => c.move) ∘ pure_candidate history sel) =
          (fun ea : EngineEntry => ea.move_san) := rfl
      rw [hfun]
      exact hmem
  · intro heng
    have hextne : hybrid_extended b single_eval eng history ≠ [] := by
      unfold hybrid_extended
      simp [heng]
    have hinfolen : (hybrid_infos b eng history markers weights single_eval).length =
        (hybrid_extended b single_eval eng history).length := by
      rw [hybrid_infos]
      exact List.length_map _ _
    have hinfone : hybrid_infos b eng history markers weights single_eval ≠ [] := by
      intro hcon
      apply hextne
      rw [← List.length_eq_zero, ← hinfolen, hcon]
      rfl
    have hscorene : (hybrid_infos b eng history markers weights single_eval).map
        (fun i => (i.raw : ℝ)) ≠ [] := by
      simpa using hinfone
    have hplen : (softmax ((hybrid_infos b eng history markers weights single_eval).map
        (fun i => (i.raw : ℝ))) (1/2)).length =
        (hybrid_infos b eng history markers weights single_eval).length := by
      rw [softmax_length, List.length_map]
    have hfinmap : (hybrid_final b eng history markers weights single_eval).map
        (·.final_prob) =
        (softmax ((hybrid_infos b eng history markers weights single_eval).map
          (fun i => (i.raw : ℝ))) (1/2)).map (· * 100) := by
      rw [hybrid_final]
      exact zipWith_final_prob_map _ _ hplen.symm
    have hfinsum : ((hybrid_final b eng history markers weights single_eval).map
        (·.final_prob)).sum = 100 := by
      rw [hfinmap]
      rw [sum_map_mul_hundred, softmax_sum_one _ _ hscorene, one_mul]
    have hsortmap : ((hybrid_sorted b eng history markers weights single_eval).map
        (·.final_prob)).sum =
        ((hybrid_final b eng history markers weights single_eval).map
          (·.final_prob)).sum :=
      ((sort_desc_perm (fun c : CandidateMove => c.final_prob) _).map _).sum_eq
    have hsortlen : (hybrid_sorted b eng history markers weights single_eval).length =
        (hybrid_final b eng history markers weights single_eval).length :=
      sort_desc_length _ _
    have hfinlen : (hybrid_final b eng history markers weights single_eval).length =
        (hybrid_infos b eng history markers weights single_eval).length := by
      rw [hybrid_final]
      rw [List.length_zipWith, hplen, min_self]
    have hsortne : hybrid_sorted b eng history markers weights single_eval ≠ [] := by
      intro hcon
      apply hinfone
      rw [← List.length_eq_zero, ← hfinlen, ← hsortlen, hcon]
      rfl
    have hlt : hybrid_selected_index b eng history markers weights single_eval rng <
        (hybrid_sorted b eng history markers weights single_eval).length := by
      rw [hybrid_selected_index]
      cases hbidx : select_blunder_move
          (hybrid_sorted b eng history markers weights single_eval) markers.blunder_rate
          b.tension rng.blunder_draw rng.blunder_choice with
      | some i =>
        simp only [select_blunder_move] at hbidx
        split_ifs at hbidx with hc1 hc2
        all_goals rw [← Option.some.inj hbidx]
        all_goals exact lt_of_lt_of_le (by norm_num) hc1.2
      | none =>
        have := select_index_lt_length
          ((hybrid_sorted b eng history markers weights single_eval).map (·.final_prob))
          ((rng.select_draw : ℝ) * 100) (by simpa using hsortne)
        simpa using this
    have hget : (hybrid_sorted b eng history markers weights single_eval)[
        hybrid_selected_index b eng history markers weights single_eval rng]? =
        some ((hybrid_sorted b eng history markers weights single_eval).get
          ⟨hybrid_selected_index b eng history markers weights single_eval rng, hlt⟩) :=
      List.getElem?_eq_getElem hlt
    have hmemsel : ((hybrid_sorted b eng history markers weights single_eval).get
        ⟨hybrid_selected_index b eng history markers weights single_eval rng, hlt⟩) ∈
        hybrid_sorted b eng history markers weights single_eval :=
      List.get_mem _ _ _
    simp only [predict_hybrid, hget]
    refine ⟨_, rfl, ?_, ?_⟩
    · rw [hsortmap]
      exact hfinsum
    · exact List.mem_map_of_mem (·.move) hmemsel

/-- Witness for C1 amended: both parts applied at concrete inputs — a
pure-history run whose fallback selection (engine top-1) is among the
engine SANs, and a hybrid run with a non-empty single-line analysis. -/
theorem c1_witness :
    (∃ r, predict_pure_history testBoard [⟨"Nf3", "g1f3", 25, 1⟩] [] testWeights false
        emptyHabit = some r ∧ (r.candidates.map (·.final_prob)).sum = 100 ∧
        r.selected_move ∈ r.candidates.map (·.move)) ∧
    (∃ r, predict_hybrid testBoard [⟨"e4", "e2e4", 30, 1⟩] [] defaultMarkers testWeights
        false emptyHabit (fun _ => -100) ⟨1/2, true, 1/5, 0⟩ = some r ∧
        (r.candidates.map (·.final_prob)).sum = 100 ∧
        r.selected_move ∈ r.candidates.map (·.move)) := by
  constructor
  · have h := (c1_amended_totals testBoard [⟨"Nf3", "g1f3", 25, 1⟩] [] defaultMarkers
      testWeights false emptyHabit (fun _ => -100) ⟨1/2, true, 1/5, 0⟩).1
    exact ⟨_, rfl, h _ rfl (by decide) (by decide)⟩
  · exact (c1_amended_totals testBoard [⟨"e4", "e2e4", 30, 1⟩] [] defaultMarkers
      testWeights false emptyHabit (fun _ => -100) ⟨1/2, true, 1/5, 0⟩).2 (by decide)

/-! ### Claim C10: the handler ignores the request's is_opponent_turn -/

/-- C10: the `/predict` handler calls the predictor without forwarding
`is_opponent_turn`, so the predictor's default `True` is used for every
request: two requests that differ only in that field (same FEN, mode,
username, markers, history, deltas and move number, with the same
environment: engine behavior and RNG draws) produce identical responses.
The field never influences the prediction through this endpoint. -/
theorem c10_handler_ignores_is_opponent_turn (env : PredictEnv)
    (r₁ r₂ : PredictionRequest)
    (hfen : r₁.fen = r₂.fen) (hmode : r₁.mode = r₂.mode)
    (huser : r₁.opponent_username = r₂.opponent_username)
    (hmark : r₁.style_markers = r₂.style_markers)
    (hhist : r₁.history_moves = r₂.history_moves)
    (hdelta : r₁.recent_eval_deltas = r₂.recent_eval_deltas)
    (hmove : r₁.move_number = r₂.move_number) :
    predict_move env r₁ = predict_move env r₂ := by
  unfold predict_move
  rw [hfen, hmode, huser, hmark, hhist, hdelta, hmove]

/-- Witness for C10 at two concrete requests differing only in
`is_opponent_turn`. -/
theorem c10_witness :
    predict_move testEnv ⟨"FEN0", .pure_history, "opp", true, defaultMarkers, [], [], 1⟩ =
      predict_move testEnv ⟨"FEN0", .pure_history, "opp", false, defaultMarkers, [], [], 1⟩ :=
  c10_handler_ignores_is_opponent_turn testEnv
    ⟨"FEN0", .pure_history, "opp", true, defaultMarkers, [], [], 1⟩
    ⟨"FEN0", .pure_history, "opp", false, defaultMarkers, [], [], 1⟩
    rfl rfl rfl rfl rfl rfl rfl

/-! ### Claim C7: scaling every frequency by a positive constant -/

/-- The history list with every frequency multiplied by `k`. -/
def scale_history (k : ℕ) (history : List HistoryMove) : List HistoryMove :=
  history.map (fun hm => ⟨hm.move_san, k * hm.frequency⟩)

theorem stable_insert_scale (k : ℕ) (hk : 0 < k) (a : HistoryMove) (l : List HistoryMove) :
    stable_insert (fun hm : HistoryMove => hm.frequency)
      (⟨a.move_san, k * a.frequency⟩ : HistoryMove)
      (l.map (fun hm => ⟨hm.move_san, k * hm.frequency⟩)) =
    (stable_insert (fun hm : HistoryMove => hm.frequency) a l).map
      (fun hm => ⟨hm.move_san, k * hm.frequency⟩) := by
  induction l with
  | nil => rfl
  | cons b t ih =>
    by_cases h : b.frequency ≤ a.frequency
    · simp only [List.map_cons, stable_insert]
      rw [if_pos ((mul_le_mul_left hk).mpr h), if_pos h]
      simp
    · simp only [List.map_cons, stable_insert]
      rw [if_neg (fun hc => h ((mul_le_mul_left hk).mp hc)), if_neg h]
      rw [List.map_cons, ih]

theorem sort_desc_scale (k : ℕ) (hk : 0 < k) (l : List HistoryMove) :
    sort_desc (fun hm : HistoryMove => hm.frequency)
      (l.map (fun hm => ⟨hm.move_san, k * hm.frequency⟩)) =
    (sort_desc (fun hm : HistoryMove => hm.frequency) l).map
      (fun hm => ⟨hm.move_san, k * hm.frequency⟩) := by
  induction l with
  | nil => rfl
  | cons a t ih =>
    show stable_insert (fun hm : HistoryMove => hm.frequency) ⟨a.move_san, k * a.frequency⟩
        (sort_desc (fun hm : HistoryMove => hm.frequency)
          (t.map (fun hm => ⟨hm.move_san, k * hm.frequency⟩))) = _
    rw [ih, stable_insert_scale k hk]
    rfl

theorem select_from_history_scale (k : ℕ) (hk : 0 < k) (b : Board)
    (history : List HistoryMove) :
    select_from_history b (scale_history k history) = select_from_history b history := by
  unfold select_from_history scale_history
  rw [sort_desc_scale k hk, List.findSome?_map]
  rfl

theorem scale_freq_sum (k : ℕ) (history : List HistoryMove) :
    ((scale_history k history).map (·.frequency)).sum =
      k * (history.map (·.frequency)).sum := by
  unfold scale_history
  rw [List.map_map]
  have hcomp : ((fun hm : HistoryMove => hm.frequency) ∘
      (fun hm : HistoryMove => (⟨hm.move_san, k * hm.frequency⟩ : HistoryMove))) =
      (fun hm : HistoryMove => k * hm.frequency) := rfl
  rw [hcomp]
  exact List.sum_map_mul_left history (·.frequency) k

theorem calculate_pi_scale (k : ℕ) (hk : 0 < k) (history : List HistoryMove) :
    (calculate_pi (scale_history k history)).1 = (calculate_pi history).1 := by
  cases history with
  | nil => rfl
  | cons a t =>
    simp only [scale_history, List.map_cons]
    simp only [calculate_pi]
    have htot : (List.map (fun x : HistoryMove => x.frequency)
        ((⟨a.move_san, k * a.frequency⟩ : HistoryMove) ::
          List.map (fun hm : HistoryMove => ⟨hm.move_san, k * hm.frequency⟩) t)).sum =
        k * (List.map (fun x : HistoryMove => x.frequency) (a :: t)).sum := by
      simpa [scale_history] using scale_freq_sum k (a :: t)
    rw [htot]
    by_cases hz : (List.map (fun x : HistoryMove => x.frequency) (a :: t)).sum = 0
    · rw [hz, Nat.mul_zero]
      simp
    · rw [if_neg (Nat.mul_ne_zero (Nat.pos_iff_ne_zero.mp hk) hz), if_neg hz]
      dsimp only
      have hfold : (⟨a.move_san, k * a.frequency⟩ : HistoryMove) ::
          List.map (fun hm : HistoryMove => ⟨hm.move_san, k * hm.frequency⟩) t =
          List.map (fun hm : HistoryMove => ⟨hm.move_san, k * hm.frequency⟩) (a :: t) := rfl
      rw [hfold, List.map_map]
      apply congrArg List.sum
      apply List.map_congr_left
      intro x _
      show (((k * x.frequency : ℕ) : ℚ) /
          ((k * (List.map (fun x : HistoryMove => x.frequency) (a :: t)).sum : ℕ) : ℚ)) ^ 2 = _
      have hcast : (((k * x.frequency : ℕ) : ℚ) /
          ((k * (List.map (fun x : HistoryMove => x.frequency) (a :: t)).sum : ℕ) : ℚ)) =
          ((x.frequency : ℚ) / ((List.map (fun x : HistoryMove => x.frequency) (a :: t)).sum : ℚ)) := by
        push_cast
        rw [mul_div_mul_left]
        exact_mod_cast Nat.pos_iff_ne_zero.mp hk
      rw [hcast]

theorem normalize_history_scale (k : ℕ) (hk : 0 < k) (history : List HistoryMove)
    (cands : List String) (m : String) :
    normalize_history (scale_history k history) cands m =
      normalize_history history cands m := by
  unfold normalize_history
  by_cases hnil : history = []
  · subst hnil
    rfl
  · rw [if_neg (by simpa [scale_history] using hnil), if_neg hnil]
    by_cases hmem : m ∈ cands
    · rw [if_pos hmem, if_pos hmem]
      have hrev : (scale_history k history).reverse =
          history.reverse.map (fun hm => ⟨hm.move_san, k * hm.frequency⟩) := by
        unfold scale_history
        rw [List.map_reverse]
      rw [hrev, List.find?_map]
      have hcomp : ((fun hm : HistoryMove => hm.move_san == m) ∘
          (fun hm : HistoryMove => (⟨hm.move_san, k * hm.frequency⟩ : HistoryMove))) =
          (fun hm : HistoryMove => hm.move_san == m) := rfl
      rw [hcomp]
      have htot : ((scale_history k history).map (·.frequency)).sum =
          k * (history.map (·.frequency)).sum := scale_freq_sum k history
      rw [htot]
      cases hfind : history.reverse.find? (fun hm => hm.move_san == m) with
      | none => rfl
      | some hm =>
        show (if 0 < k * (history.map (·.frequency)).sum then
            ((k * hm.frequency : ℕ) : ℚ) / ((k * (history.map (·.frequency)).sum : ℕ) : ℚ)
          else 0) =
          (if 0 < (history.map (·.frequency)).sum then
            (hm.frequency : ℚ) / (((history.map (·.frequency)).sum : ℕ) : ℚ)
          else 0)
        by_cases hz : 0 < (history.map (·.frequency)).sum
        · rw [if_pos (by positivity), if_pos hz]
          push_cast
          rw [mul_div_mul_left]
          exact_mod_cast Nat.pos_iff_ne_zero.mp hk
        · rw [if_neg (fun hcon => hz (Nat.pos_of_ne_zero (fun h0 => by
            rw [h0, Nat.mul_zero] at hcon
            exact lt_irrefl 0 hcon))), if_neg hz]
    · rw [if_neg hmem, if_neg hmem]


/-- C7 amended: multiplying every history frequency by a positive constant
k changes neither the Predictability Index, nor any candidate's history
normalization H, nor the selected move of *pure-history* mode (the stable
descending order is scale-invariant).  In hybrid mode, however, the
candidate-assembly threshold `frequency ≥ 5` is not scale-invariant, so
the candidate set — and with it the selected move — can change (see the
counterexample). -/
theorem c7_amended_scaling (k : ℕ) (hk : 0 < k) (history : List HistoryMove)
    (cands : List String) (m : String) (b : Board) (eng : List EngineEntry)
    (w₁ w₂ : PhaseWeights) (tilt : Bool) (habit₁ habit₂ : HabitDetection) :
    (calculate_pi (scale_history k history)).1 = (calculate_pi history).1 ∧
    normalize_history (scale_history k history) cands m =
      normalize_history history cands m ∧
    (predict_pure_history b eng (scale_history k history) w₁ tilt habit₁).map
        (·.selected_move) =
      (predict_pure_history b eng history w₂ tilt habit₂).map (·.selected_move) := by
  refine ⟨calculate_pi_scale k hk history, normalize_history_scale k hk history cands m, ?_⟩
  rw [predict_pure_history.eq_def, predict_pure_history.eq_def,
    select_from_history_scale k hk]
  cases hs : select_from_history b history with
  | some p =>
    obtain ⟨san, uci⟩ := p
    rfl
  | none =>
    cases eng with
    | nil => rfl
    | cons e es => rfl

/-- Witness for C7 amended at k = 3 and a concrete history. -/
theorem c7_witness :
    (calculate_pi (scale_history 3 [⟨"Nf3", 2⟩, ⟨"Nc3", 1⟩])).1 =
      (calculate_pi [⟨"Nf3", 2⟩, ⟨"Nc3", 1⟩]).1 ∧
    normalize_history (scale_history 3 [⟨"Nf3", 2⟩, ⟨"Nc3", 1⟩]) ["Nf3"] "Nf3" =
      normalize_history [⟨"Nf3", 2⟩, ⟨"Nc3", 1⟩] ["Nf3"] "Nf3" ∧
    (predict_pure_history testBoard [⟨"e4", "e2e4", 30, 1⟩]
        (scale_history 3 [⟨"Nf3", 2⟩, ⟨"Nc3", 1⟩]) testWeights false emptyHabit).map
        (·.selected_move) =
      (predict_pure_history testBoard [⟨"e4", "e2e4", 30, 1⟩] [⟨"Nf3", 2⟩, ⟨"Nc3", 1⟩]
        testWeights false emptyHabit).map (·.selected_move) :=
  c7_amended_scaling 3 (by norm_num) [⟨"Nf3", 2⟩, ⟨"Nc3", 1⟩] ["Nf3"] "Nf3" testBoard
    [⟨"e4", "e2e4", 30, 1⟩] testWeights testWeights false emptyHabit emptyHabit

/-- Stage lemma: with history [Xa9:68, Nh6:4] the extend step adds nothing —
Xa9 is not legal and Nh6 has freq_pct 4/72*100 < 10 and frequency 4 < 5. -/
theorem c7_hasm1 (se : String → ℤ) :
    hybrid_assembled testBoard se [⟨"e4", "e2e4", 30, 1⟩] [⟨"Xa9", 68⟩, ⟨"Nh6", 4⟩] =
      (["e4"], []) := by
  simp +decide [hybrid_assembled, assemble_step, testBoard]
  all_goals norm_num

/-- Stage lemma: after scaling by 2 the same history becomes [Xa9:136, Nh6:8];
Nh6 now has frequency 8 ≥ 5, so it is appended as an extra candidate. -/
theorem c7_hasm2 (se : String → ℤ) :
    hybrid_assembled testBoard se [⟨"e4", "e2e4", 30, 1⟩] [⟨"Xa9", 136⟩, ⟨"Nh6", 8⟩] =
      (["e4", "Nh6"], [⟨"Nh6", "g8h6", se "g8h6", 2⟩]) := by
  simp +decide [hybrid_assembled, assemble_step, testBoard]
  all_goals norm_num

/-- Run 1 of the C7 counterexample at the hybrid level: with the unscaled
history the only candidate is e4, so the selected move is e4. -/
theorem c7_hyb1 (W : PhaseWeights) (H : HabitDetection) (se : String → ℤ) :
    (predict_hybrid testBoard [⟨"e4", "e2e4", 30, 1⟩] [⟨"Xa9", 68⟩, ⟨"Nh6", 4⟩]
      defaultMarkers W false H se ⟨1/2, true, 3/5, 0⟩).map (·.selected_move) =
      some "e4" := by
  have hext : hybrid_extended testBoard se [⟨"e4", "e2e4", 30, 1⟩]
      [⟨"Xa9", 68⟩, ⟨"Nh6", 4⟩] = [⟨"e4", "e2e4", 30, 1⟩] := by
    simp [hybrid_extended, c7_hasm1]
  have hinfos : hybrid_infos testBoard [⟨"e4", "e2e4", 30, 1⟩] [⟨"Xa9", 68⟩, ⟨"Nh6", 4⟩]
      defaultMarkers W se =
      [⟨⟨"e4", "e2e4", 30, 1⟩, 0, 0, zeroAttribution, 0⟩] := by
    simp only [hybrid_infos, hext, c7_hasm1]
    simp +decide [normalize_history, normalize_engine_evals, testBoard, calculate_style_fit,
      testFeatures, defaultMarkers, zeroAttribution, List.find?]
  have hfinal : hybrid_final testBoard [⟨"e4", "e2e4", 30, 1⟩] [⟨"Xa9", 68⟩, ⟨"Nh6", 4⟩]
      defaultMarkers W se =
      [⟨"e4", "e2e4", 30 / 100, 1, 0, 0, 0, 100, zeroAttribution⟩] := by
    simp only [hybrid_final, hinfos]
    simp [softmax, Real.exp_zero]
  have hsorted : hybrid_sorted testBoard [⟨"e4", "e2e4", 30, 1⟩] [⟨"Xa9", 68⟩, ⟨"Nh6", 4⟩]
      defaultMarkers W se =
      [⟨"e4", "e2e4", 30 / 100, 1, 0, 0, 0, 100, zeroAttribution⟩] := by
    simp only [hybrid_sorted, hfinal]
    simp [sort_desc, stable_insert]
  simp only [predict_hybrid, hybrid_selected_index, hsorted]
  simp +decide [select_blunder_move, select_index, cdf_find, testBoard, defaultMarkers,
    Option.map]
  norm_num


/-- Run 2 of the C7 counterexample at the hybrid level: with the scaled
history, Nh6 joins the candidates; both raw scores are 1/20, softmax gives
50/50, and the CDF draw 3/5 selects index 1 = Nh6. -/
theorem c7_hyb2 (W : PhaseWeights) (H : HabitDetection) (se : String → ℤ)
    (hWh : W.history = 9/10) (hWe : W.engine = 1/20) (hWs : W.style = 1/20)
    (hse : se "g8h6" = -100) :
    (predict_hybrid testBoard [⟨"e4", "e2e4", 30, 1⟩] [⟨"Xa9", 136⟩, ⟨"Nh6", 8⟩]
      defaultMarkers W false H se ⟨1/2, true, 3/5, 0⟩).map (·.selected_move) =
      some "Nh6" := by
  have hext : hybrid_extended testBoard se [⟨"e4", "e2e4", 30, 1⟩]
      [⟨"Xa9", 136⟩, ⟨"Nh6", 8⟩] =
      [⟨"e4", "e2e4", 30, 1⟩, ⟨"Nh6", "g8h6", -100, 2⟩] := by
    simp [hybrid_extended, c7_hasm2, hse]
  have hinfos : hybrid_infos testBoard [⟨"e4", "e2e4", 30, 1⟩] [⟨"Xa9", 136⟩, ⟨"Nh6", 8⟩]
      defaultMarkers W se =
      [⟨⟨"e4", "e2e4", 30, 1⟩, 0, 0, zeroAttribution, 1/20⟩,
       ⟨⟨"Nh6", "g8h6", -100, 2⟩, 1/18, 0, zeroAttribution, 1/20⟩] := by
    simp only [hybrid_infos, hext, c7_hasm2]
    simp +decide [normalize_history, normalize_engine_evals, testBoard, calculate_style_fit,
      testFeatures, defaultMarkers, zeroAttribution, List.find?, hWh, hWe, hWs, hse]
    all_goals norm_num
  have hfinal : hybrid_final testBoard [⟨"e4", "e2e4", 30, 1⟩] [⟨"Xa9", 136⟩, ⟨"Nh6", 8⟩]
      defaultMarkers W se =
      [⟨"e4", "e2e4", 30 / 100, 1, 0, 0, 1/20, 50, zeroAttribution⟩,
       ⟨"Nh6", "g8h6", -100 / 100, 2, 1/18, 0, 1/20, 50, zeroAttribution⟩] := by
    simp only [hybrid_final, hinfos]
    simp [softmax, Real.exp_zero]
    norm_num
  have hsorted : hybrid_sorted testBoard [⟨"e4", "e2e4", 30, 1⟩] [⟨"Xa9", 136⟩, ⟨"Nh6", 8⟩]
      defaultMarkers W se =
      [⟨"e4", "e2e4", 30 / 100, 1, 0, 0, 1/20, 50, zeroAttribution⟩,
       ⟨"Nh6", "g8h6", -100 / 100, 2, 1/18, 0, 1/20, 50, zeroAttribution⟩] := by
    simp only [hybrid_sorted, hfinal]
    simp [sort_desc, stable_insert]
  simp only [predict_hybrid, hybrid_selected_index, hsorted]
  simp +decide [select_blunder_move, select_index, cdf_find, testBoard, defaultMarkers,
    Option.map]
  norm_num


/-- C7 counterexample: scaling every history frequency by the same factor
k = 2 changes the hybrid prediction (e4 becomes Nh6), because the
candidate-assembly threshold `frequency >= 5` is absolute, not relative. -/
theorem c7_counterexample :
    scale_history 2 [⟨"Xa9", 68⟩, ⟨"Nh6", 4⟩] = [⟨"Xa9", 136⟩, ⟨"Nh6", 8⟩] ∧
    (predict testEnv "FEN0" .hybrid "opp" defaultMarkers [⟨"Xa9", 68⟩, ⟨"Nh6", 4⟩] [] 1
        true).toOption.map (·.selected_move) = some "e4" ∧
    (predict testEnv "FEN0" .hybrid "opp" defaultMarkers [⟨"Xa9", 136⟩, ⟨"Nh6", 8⟩] [] 1
        true).toOption.map (·.selected_move) = some "Nh6" := by
  refine ⟨by decide, ?_, ?_⟩
  · have h1 := c7_hyb1 (get_dynamic_weights 1 [⟨"Xa9", 68⟩, ⟨"Nh6", 4⟩] true).1
      (detect_habit [⟨"Xa9", 68⟩, ⟨"Nh6", 4⟩]) (fun _ => (-100 : ℤ))
    obtain ⟨resp, hresp, hselv⟩ := Option.map_eq_some'.mp h1
    simp only [predict, testEnv]
    simp only [one_div] at hresp
    simp +decide [detect_tilt, hresp, hselv, Except.toOption, Option.map]
  · have hW1 : (get_dynamic_weights 1 [⟨"Xa9", 136⟩, ⟨"Nh6", 8⟩] true).1.history = 9/10 := by
      norm_num [get_dynamic_weights, calculate_pi, determine_phase, HABIT_WEIGHTS]
    have hW2 : (get_dynamic_weights 1 [⟨"Xa9", 136⟩, ⟨"Nh6", 8⟩] true).1.engine = 1/20 := by
      norm_num [get_dynamic_weights, calculate_pi, determine_phase, HABIT_WEIGHTS]
    have hW3 : (get_dynamic_weights 1 [⟨"Xa9", 136⟩, ⟨"Nh6", 8⟩] true).1.style = 1/20 := by
      norm_num [get_dynamic_weights, calculate_pi, determine_phase, HABIT_WEIGHTS]
    have h2 := c7_hyb2 (get_dynamic_weights 1 [⟨"Xa9", 136⟩, ⟨"Nh6", 8⟩] true).1
      (detect_habit [⟨"Xa9", 136⟩, ⟨"Nh6", 8⟩]) (fun _ => (-100 : ℤ)) hW1 hW2 hW3 rfl
    obtain ⟨resp, hresp, hselv⟩ := Option.map_eq_some'.mp h2
    simp only [predict, testEnv]
    simp only [one_div] at hresp
    simp +decide [detect_tilt, hresp, hselv, Except.toOption, Option.map]

end ChessScout
